import Mathlib

/-
Shallow embedding of the triangular surface-mesh topology and geometry engine
in src/bempp/api/grid/grid.py, together with theorems settling the
specification's claims about it.

Conventions of the embedding:
* vertex coordinates are exact rationals (the Python code uses float64);
  square roots of norms live in ℝ;
* numpy arrays become Lean lists; a 3 x M array stored column-wise becomes a
  list of M triples;
* Python exceptions become `Except GridError`; the spec's names for the
  exceptions map to the code's raises as follows: `InvalidArgumentError` is
  the `ValueError` on a bad codimension, `ConsistencyError` is the
  `ValueError` raised by `_find_first_common_array_index_pair_from_position`,
  `DegenerateElementError` is the `LinAlgError` that `numpy.linalg.inv`
  raises on a singular Gram matrix, and the out-of-range vertex index error
  is the `ValueError` raised by scipy's `csr_matrix` constructor inside
  `get_vertex_to_element_matrix`.
-/

namespace BemppGrid

set_option synthInstance.maxSize 512

/-- A 3D point with rational coordinates (one column of the 3 x V numpy
vertex array). -/
abbrev Vec3 := ℚ × ℚ × ℚ

/-- An element: the triple of its vertex indices (one column of the 3 x M
numpy element array). -/
abbrev Elt := ℕ × ℕ × ℕ

/-- The errors grid construction can signal; see the header comment for the
correspondence with the Python exceptions. -/
inductive GridError
  | indexOutOfBounds
  | consistencyError
  | singularMatrix
  | invalidArgument
deriving DecidableEq

instance exceptDecidableEq {ε α : Type} [DecidableEq ε] [DecidableEq α] :
    DecidableEq (Except ε α)
  | .error e, .error e' => decidable_of_iff (e = e') (by simp)
  | .error _, .ok _ => isFalse (by simp)
  | .ok _, .error _ => isFalse (by simp)
  | .ok a, .ok a' => decidable_of_iff (a = a') (by simp)

/-- The three entries of a numpy column, as a list. -/
def triple_list (t : ℕ × ℕ × ℕ) : List ℕ := [t.1, t.2.1, t.2.2]

/-- Entry `l` of a numpy column (`l` is 0, 1 or 2). -/
def triple_get (t : ℕ × ℕ × ℕ) (l : ℕ) : ℕ :=
  if l = 0 then t.1 else if l = 1 then t.2.1 else t.2.2

/-- A column has three pairwise distinct entries. -/
def triple_nodup (t : ℕ × ℕ × ℕ) : Prop :=
  t.1 ≠ t.2.1 ∧ t.1 ≠ t.2.2 ∧ t.2.1 ≠ t.2.2

instance (t : ℕ × ℕ × ℕ) : Decidable (triple_nodup t) := by
  unfold triple_nodup; infer_instance

/-- Position of the first occurrence of `v` in a list, `none` if absent. -/
def first_index_of {α : Type} [DecidableEq α] : List α → α → Option ℕ
  | [], _ => none
  | x :: rest, v => if x = v then some 0 else (first_index_of rest v).map (· + 1)

/-- Embedding of `_compare_array_to_value`: index of the first entry equal to
`val`; the sentinel `-1` becomes `none`. -/
def compare_array_to_value (a : List ℕ) (v : ℕ) : Option ℕ := first_index_of a v

/-- The scan loop of `_find_first_common_array_index_pair_from_position`:
walks the remaining part of `array1`, carrying the absolute position `i`. -/
def find_first_aux : List ℕ → List ℕ → ℕ → Option (ℕ × ℕ)
  | [], _, _ => none
  | x :: rest, a2, i =>
    match compare_array_to_value a2 x with
    | some j => some (i, j)
    | none => find_first_aux rest a2 (i + 1)

/-- Embedding of `_find_first_common_array_index_pair_from_position`: first
pair `(i, j)` with `array1[i] = array2[j]` and `i ≥ start`; the `ValueError`
raised when the loop runs out becomes `.error .consistencyError`. -/
def find_first_common_array_index_pair_from_position (a1 a2 : List ℕ)
    (start : ℕ) : Except GridError (ℕ × ℕ) :=
  match find_first_aux (a1.drop start) a2 start with
  | some p => .ok p
  | none => .error .consistencyError

/-- Embedding of `_find_two_common_array_index_pairs`: the first pair is
searched from position 0, the second from position `i1 + 1` (the comment in
the source: next search starts behind found pair). The result `(p1, p2)`
holds the two columns of the returned 2 x 2 numpy array. -/
def find_two_common_array_index_pairs (a1 a2 : List ℕ) :
    Except GridError ((ℕ × ℕ) × (ℕ × ℕ)) :=
  match find_first_common_array_index_pair_from_position a1 a2 0 with
  | .error e => .error e
  | .ok p1 =>
    match find_first_common_array_index_pair_from_position a1 a2 (p1.1 + 1) with
    | .error e => .error e
    | .ok p2 => .ok (p1, p2)

/-- Embedding of `_sort_values`. -/
def sort_values (p : ℕ × ℕ) : ℕ × ℕ := if p.1 > p.2 then (p.2, p.1) else p

/-- The vertex pair of local edge `l` of an element, following
`_EDGE_LOCAL = [[0, 1], [2, 0], [1, 2]]`. -/
def edge_local_pair (el : Elt) (l : ℕ) : ℕ × ℕ :=
  if l = 0 then (el.1, el.2.1)
  else if l = 1 then (el.2.2, el.1)
  else (el.2.1, el.2.2)

/-- Embedding of `_vertices_from_edge_index`: the canonical (sorted) vertex
pair of local edge `l` of an element. -/
def vertices_from_edge_index (el : Elt) (l : ℕ) : ℕ × ℕ :=
  sort_values (edge_local_pair el l)

/-- One lookup-or-insert step of `_enumerate_edges`.  The dictionary
`edge_tuple_to_index` is represented by the `edges` list itself: its keys are
exactly the stored tuples and the index stored for a key is the key's
position in `edges`. -/
def enum_edge_step (edges : List (ℕ × ℕ)) (key : ℕ × ℕ) :
    List (ℕ × ℕ) × ℕ :=
  match first_index_of edges key with
  | some i => (edges, i)
  | none => (edges ++ [key], edges.length)

/-- The inner loop of `_enumerate_edges` for one element: local edges 0, 1, 2
in order. -/
def enum_element (edges : List (ℕ × ℕ)) (el : Elt) :
    List (ℕ × ℕ) × (ℕ × ℕ × ℕ) :=
  let s0 := enum_edge_step edges (vertices_from_edge_index el 0)
  let s1 := enum_edge_step s0.1 (vertices_from_edge_index el 1)
  let s2 := enum_edge_step s1.1 (vertices_from_edge_index el 2)
  (s2.1, (s0.2, s1.2, s2.2))

/-- The outer loop of `_enumerate_edges` over all elements, accumulating the
`element_edges` columns. -/
def enum_go : List Elt → List (ℕ × ℕ) → List (ℕ × ℕ × ℕ) →
    List (ℕ × ℕ) × List (ℕ × ℕ × ℕ)
  | [], edges, ee => (edges, ee)
  | el :: rest, edges, ee =>
    let s := enum_element edges el
    enum_go rest s.1 (ee ++ [s.2])

/-- Embedding of `Grid._enumerate_edges`: returns `(edges, element_edges)`.
`edges` lists the canonical vertex pair of each global edge index in order;
`element_edges` holds, per element, the triple of global edge indices of its
local edges 0, 1, 2. -/
def enumerate_edges (els : List Elt) :
    List (ℕ × ℕ) × List (ℕ × ℕ × ℕ) :=
  enum_go els [] []

/-- The stream of canonical edge keys in traversal order: elements 0..M-1,
local edges 0, 1, 2. -/
def key_stream (els : List Elt) : List (ℕ × ℕ) :=
  els.flatMap (fun el =>
    [vertices_from_edge_index el 0, vertices_from_edge_index el 1,
     vertices_from_edge_index el 2])

/-- One step of first-encounter deduplication. -/
def dedup_step (acc : List (ℕ × ℕ)) (k : ℕ × ℕ) : List (ℕ × ℕ) :=
  if k ∈ acc then acc else acc ++ [k]

/-- Modelled from the spec: the distinct canonical pairs in first-encounter
order ("assign the next unused index ... so edge discovery order is
deterministic").  Used to compare the code's enumeration against the spec's
description. -/
def first_encounter_dedup (s : List (ℕ × ℕ)) : List (ℕ × ℕ) :=
  s.foldl dedup_step []

/-- Number of occurrences of vertex `v` in the column of element `m`: entry
`(v, m)` of the sparse matrix built by `get_vertex_to_element_matrix`
(`csr_matrix` sums duplicate entries). -/
def vte_count (els : List Elt) (v m : ℕ) : ℕ :=
  (triple_list (els.getD m (0, 0, 0))).count v

/-- Entry `(i, j)` of `get_element_to_element_matrix`: the product
`vertex_to_element.T @ vertex_to_element`, i.e. the number of (position)
pairs via which elements `i` and `j` share a vertex. -/
def e2e_count (V : ℕ) (els : List Elt) (i j : ℕ) : ℕ :=
  ∑ v ∈ Finset.range V, vte_count els v i * vte_count els v j

/-- All index pairs `(i, j)` in the row-major order in which `tocoo` lists
the entries of the (canonical-form) element-to-element csr matrix. -/
def all_pairs (M : ℕ) : List (ℕ × ℕ) :=
  (List.range M).flatMap (fun i => (List.range M).map (fun j => (i, j)))

/-- Embedding of `_get_element_to_element_vertex_count` composed with
`_element_filter`: the element pairs whose shared-vertex count equals
`filter_type`, in the matrix traversal order.  (Entries with count 0 are not
stored in the sparse matrix, but the filters used take `filter_type` 1 or 2,
so restricting `all_pairs` by the count is the same selection.) -/
def element_filter (V : ℕ) (els : List Elt) (filter_type : ℕ) :
    List (ℕ × ℕ) :=
  (all_pairs els.length).filter (fun p => e2e_count V els p.1 p.2 == filter_type)

/-- Runs a fallible resolver over every entry of a list, stopping at the
first error — the loop shape shared by `_find_vertex_adjacency` and
`_find_edge_adjacency`. -/
def resolve_all {α β : Type} (f : α → Except GridError β) :
    List α → Except GridError (List β)
  | [] => .ok []
  | x :: rest =>
    match f x with
    | .error e => .error e
    | .ok y =>
      match resolve_all f rest with
      | .error e => .error e
      | .ok ys => .ok (y :: ys)

/-- Embedding of `_get_shared_vertex_information_for_two_elements` plus the
column assembly in `_find_vertex_adjacency`: the column layout is
`(e0, e1, i, j)` with `elements[i, e0] == elements[j, e1]`. -/
def vertex_adjacency_column (els : List Elt) (p : ℕ × ℕ) :
    Except GridError (ℕ × ℕ × ℕ × ℕ) :=
  match find_first_common_array_index_pair_from_position
      (triple_list (els.getD p.1 (0, 0, 0)))
      (triple_list (els.getD p.2 (0, 0, 0))) 0 with
  | .error e => .error e
  | .ok pr => .ok (p.1, p.2, pr.1, pr.2)

/-- Embedding of `_get_shared_edge_information_for_two_elements` plus the
column assembly in `_find_edge_adjacency`: `index_pairs.flatten()` of the
2 x 2 array whose columns are the two found pairs gives the layout
`(e0, e1, i1, i2, j1, j2)`. -/
def edge_adjacency_column (els : List Elt) (p : ℕ × ℕ) :
    Except GridError (ℕ × ℕ × ℕ × ℕ × ℕ × ℕ) :=
  match find_two_common_array_index_pairs
      (triple_list (els.getD p.1 (0, 0, 0)))
      (triple_list (els.getD p.2 (0, 0, 0))) with
  | .error e => .error e
  | .ok pr => .ok (p.1, p.2, pr.1.1, pr.2.1, pr.1.2, pr.2.2)

/-- Embedding of `_find_vertex_adjacency` applied to the filtered pairs. -/
def find_vertex_adjacency (els : List Elt) (pairs : List (ℕ × ℕ)) :
    Except GridError (List (ℕ × ℕ × ℕ × ℕ)) :=
  resolve_all (vertex_adjacency_column els) pairs

/-- Embedding of `_find_edge_adjacency` applied to the filtered pairs. -/
def find_edge_adjacency (els : List Elt) (pairs : List (ℕ × ℕ)) :
    Except GridError (List (ℕ × ℕ × ℕ × ℕ × ℕ × ℕ)) :=
  resolve_all (edge_adjacency_column els) pairs

/-- Number of local edges of element `m` whose global edge index is `e`:
entry `(m, e)` of the `element_to_edge` csr matrix built in
`_compute_boundary_information`. -/
def count_refs (ee : List (ℕ × ℕ × ℕ)) (m e : ℕ) : ℕ :=
  (triple_list (ee.getD m (0, 0, 0))).count e

/-- Diagonal entry `e` of `element_to_edge.T @ element_to_edge`. -/
def edge_diag (M : ℕ) (ee : List (ℕ × ℕ × ℕ)) (e : ℕ) : ℕ :=
  ∑ m ∈ Finset.range M, count_refs ee m e * count_refs ee m e

/-- The boolean edge-boundary array `arr1 = edge_to_edge.diagonal() == 1`. -/
def edge_on_boundary_list (E M : ℕ) (ee : List (ℕ × ℕ × ℕ)) : List Bool :=
  (List.range E).map (fun e => edge_diag M ee e == 1)

/-- The body of the loop `arr0[self.edges[:, boundary_edge_index]] = True`. -/
def mark_edge_endpoints (flags : List Bool) (edges : List (ℕ × ℕ)) (e : ℕ) :
    List Bool :=
  ((flags.set (edges.getD e (0, 0)).1 true).set (edges.getD e (0, 0)).2 true)

/-- The boolean vertex-boundary array `arr0`: start from all-`False` and mark
both endpoints of every boundary edge (`np.flatnonzero(arr1)` lists the
boundary edge indices in increasing order). -/
def vertex_on_boundary_list (V : ℕ) (edges : List (ℕ × ℕ)) (M : ℕ)
    (ee : List (ℕ × ℕ × ℕ)) : List Bool :=
  (((List.range edges.length).filter (fun e => edge_diag M ee e == 1)).foldl
    (fun flags e => mark_edge_endpoints flags edges e)) (List.replicate V false)

/-- Appending one element index to the neighbor list of one edge, i.e.
`self._edge_neighbors[...].append(element_index)`. -/
def append_neighbor (acc : List (List ℕ)) (e m : ℕ) : List (List ℕ) :=
  acc.set e (acc.getD e [] ++ [m])

/-- The double loop of `_compute_edge_neighbors`: element index `m` runs over
the remaining columns of `element_edges`, local indices 0, 1, 2 in order. -/
def edge_nb_go : List (ℕ × ℕ × ℕ) → ℕ → List (List ℕ) → List (List ℕ)
  | [], _, acc => acc
  | t :: rest, m, acc =>
    edge_nb_go rest (m + 1)
      (append_neighbor (append_neighbor (append_neighbor acc t.1 m) t.2.1 m) t.2.2 m)

/-- Embedding of `Grid._compute_edge_neighbors`. -/
def edge_neighbors_list (E : ℕ) (ee : List (ℕ × ℕ × ℕ)) : List (List ℕ) :=
  edge_nb_go ee 0 (List.replicate E [])

/-- Componentwise difference of 3D points. -/
def vsub (a b : Vec3) : Vec3 := (a.1 - b.1, a.2.1 - b.2.1, a.2.2 - b.2.2)

/-- Componentwise sum of 3D points. -/
def vadd (a b : Vec3) : Vec3 := (a.1 + b.1, a.2.1 + b.2.1, a.2.2 + b.2.2)

/-- Scalar multiple of a 3D point. -/
def vsmul (q : ℚ) (a : Vec3) : Vec3 := (q * a.1, q * a.2.1, q * a.2.2)

/-- Euclidean dot product. -/
def vdot (a b : Vec3) : ℚ := a.1 * b.1 + a.2.1 * b.2.1 + a.2.2 * b.2.2

/-- Cross product (`np.cross` along `axis=1`). -/
def vcross (a b : Vec3) : Vec3 :=
  (a.2.1 * b.2.2 - a.2.2 * b.2.1,
   a.2.2 * b.1 - a.1 * b.2.2,
   a.1 * b.2.1 - a.2.1 * b.1)

/-- Euclidean norm (`np.linalg.norm`), in ℝ. -/
noncomputable def vnorm (a : Vec3) : ℝ := Real.sqrt ((vdot a a : ℚ) : ℝ)

/-- The flattened list `element_vertices = vertices.T[elements.flatten(order="F")]`:
for element `e`, rows `3e, 3e+1, 3e+2` hold the coordinates of its three
vertices. -/
def element_vertices (vs : List Vec3) (els : List Elt) : List Vec3 :=
  els.flatMap (fun el =>
    [vs.getD el.1 (0, 0, 0), vs.getD el.2.1 (0, 0, 0), vs.getD el.2.2 (0, 0, 0)])

/-- Row `r` of `element_vertices` (out-of-range rows read as the origin). -/
def ev_at (vs : List Vec3) (els : List Elt) (r : ℕ) : Vec3 :=
  (element_vertices vs els).getD r (0, 0, 0)

/-- The index array `indices = np.repeat(3*np.arange(M), 2) + np.tile([1, 2], M)`:
entry `k` is `3*(k/2) + 1 + k%2`. -/
def jac_index (k : ℕ) : ℕ := 3 * (k / 2) + 1 + k % 2

/-- Row `k` of the flattened Jacobian array
`(element_vertices - np.repeat(element_vertices[::3], 3, axis=0))[indices]`:
row `2e` is the first Jacobian column of element `e`, row `2e+1` the second. -/
def jacobian_row (vs : List Vec3) (els : List Elt) (k : ℕ) : Vec3 :=
  vsub (ev_at vs els (jac_index k)) (ev_at vs els (3 * (jac_index k / 3)))

/-- `normal_directions = np.cross(jacobians[::2], jacobians[1::2], axis=1)`. -/
def normal_direction (vs : List Vec3) (els : List Elt) (e : ℕ) : Vec3 :=
  vcross (jacobian_row vs els (2 * e)) (jacobian_row vs els (2 * e + 1))

/-- The stored unit normal of element `e` (componentwise division by the
norm of the normal direction). -/
noncomputable def normal_r (vs : List Vec3) (els : List Elt) (e : ℕ) : ℝ × ℝ × ℝ :=
  let d := normal_direction vs els e
  let n := vnorm d
  (((d.1 : ℚ) : ℝ) / n, ((d.2.1 : ℚ) : ℝ) / n, ((d.2.2 : ℚ) : ℝ) / n)

/-- The stored element volume `0.5 * normal_direction_norms`. -/
noncomputable def volume_r (vs : List Vec3) (els : List Elt) (e : ℕ) : ℝ :=
  (1 / 2 : ℝ) * vnorm (normal_direction vs els e)

/-- The stored centroid: the reshape of `element_vertices` to `(M, 3, 3)`
summed over the middle axis, times `1/3`. -/
def centroid_q (vs : List Vec3) (els : List Elt) (e : ℕ) : Vec3 :=
  vsmul (1 / 3)
    (vadd (vadd (ev_at vs els (3 * e)) (ev_at vs els (3 * e + 1)))
      (ev_at vs els (3 * e + 2)))

/-- The stored diameter
`|j0| * |j1| * |j0 - j1| / |normal_direction|`. -/
noncomputable def diameter_r (vs : List Vec3) (els : List Elt) (e : ℕ) : ℝ :=
  vnorm (jacobian_row vs els (2 * e)) * vnorm (jacobian_row vs els (2 * e + 1)) *
    vnorm (vsub (jacobian_row vs els (2 * e)) (jacobian_row vs els (2 * e + 1))) /
    vnorm (normal_direction vs els e)

/-- The 2 x 2 Gram matrix `jacobians[e].T @ jacobians[e]`, stored as
`((a, b), (c, d))` in row-major order. -/
def gram (vs : List Vec3) (els : List Elt) (e : ℕ) : (ℚ × ℚ) × (ℚ × ℚ) :=
  let j0 := jacobian_row vs els (2 * e)
  let j1 := jacobian_row vs els (2 * e + 1)
  ((vdot j0 j0, vdot j0 j1), (vdot j1 j0, vdot j1 j1))

/-- Determinant of a 2 x 2 matrix `((a, b), (c, d))`. -/
def det2 (m : (ℚ × ℚ) × (ℚ × ℚ)) : ℚ := m.1.1 * m.2.2 - m.1.2 * m.2.1

/-- `np.linalg.det(jac_transpose_jac)` for element `e`. -/
def gram_det (vs : List Vec3) (els : List Elt) (e : ℕ) : ℚ :=
  det2 (gram vs els e)

/-- The stored integration element `sqrt(det(JᵀJ))`. -/
noncomputable def integration_element_r (vs : List Vec3) (els : List Elt)
    (e : ℕ) : ℝ :=
  Real.sqrt ((gram_det vs els e : ℚ) : ℝ)

/-- The exact inverse of the 2 x 2 Gram matrix, the meaning of
`np.linalg.inv(jac_transpose_jac)` when it does not raise. -/
def gram_inv (vs : List Vec3) (els : List Elt) (e : ℕ) : (ℚ × ℚ) × (ℚ × ℚ) :=
  let g := gram vs els e
  let d := det2 g
  ((g.2.2 / d, -g.1.2 / d), (-g.2.1 / d, g.1.1 / d))

/-- Column `k` (0 or 1) of the stored
`jacobian_inverse_transposed[e] = jacobians[e] @ jac_transpose_jac_inv[e]`. -/
def jit_col (vs : List Vec3) (els : List Elt) (e k : ℕ) : Vec3 :=
  let j0 := jacobian_row vs els (2 * e)
  let j1 := jacobian_row vs els (2 * e + 1)
  let gi := gram_inv vs els e
  if k = 0 then vadd (vsmul gi.1.1 j0) (vsmul gi.2.1 j1)
  else vadd (vsmul gi.1.2 j0) (vsmul gi.2.2 j1)

/-- Element column entries all reference existing vertices; scipy's
`csr_matrix` constructor checks exactly this in `get_vertex_to_element_matrix`. -/
def triple_in_bounds (V : ℕ) (el : Elt) : Prop :=
  el.1 < V ∧ el.2.1 < V ∧ el.2.2 < V

instance (V : ℕ) (el : Elt) : Decidable (triple_in_bounds V el) := by
  unfold triple_in_bounds; infer_instance

/-- The immutable mesh aggregate: the arrays `Grid.__init__` computes and
stores (the per-element geometry is recomputed on demand by the functions
above from `vertices` and `elements`, which the code stores verbatim). -/
structure Grid where
  vertices : List Vec3
  elements : List Elt
  domainIndices : List ℕ
  edges : List (ℕ × ℕ)
  elementEdges : List (ℕ × ℕ × ℕ)
  vertexAdjacency : List (ℕ × ℕ × ℕ × ℕ)
  edgeAdjacency : List (ℕ × ℕ × ℕ × ℕ × ℕ × ℕ)
  edgeOnBoundary : List Bool
  vertexOnBoundary : List Bool
  edgeNeighbors : List (List ℕ)

/-- Embedding of `Grid.__init__`: enumerate edges, build both adjacencies
(the scipy `csr_matrix` constructor first rejects any vertex index ≥ V),
compute the geometry (`np.linalg.inv` raises on a singular Gram matrix),
then boundary information and edge neighbors.  Any exception aborts
construction: no `Grid` value is produced.  (`_get_element_neighbors` always
succeeds and no claim concerns it, so it is not carried in the structure.) -/
def buildGrid (vs : List Vec3) (els : List Elt) (doms : List ℕ) :
    Except GridError Grid :=
  let en := enumerate_edges els
  if ∀ el ∈ els, triple_in_bounds vs.length el then
    match find_vertex_adjacency els (element_filter vs.length els 1) with
    | .error e => .error e
    | .ok va =>
      match find_edge_adjacency els (element_filter vs.length els 2) with
      | .error e => .error e
      | .ok ea =>
        if ∀ e ∈ List.range els.length, gram_det vs els e ≠ 0 then
          .ok { vertices := vs, elements := els, domainIndices := doms,
                edges := en.1, elementEdges := en.2,
                vertexAdjacency := va, edgeAdjacency := ea,
                edgeOnBoundary := edge_on_boundary_list en.1.length els.length en.2,
                vertexOnBoundary := vertex_on_boundary_list vs.length en.1 els.length en.2,
                edgeNeighbors := edge_neighbors_list en.1.length en.2 }
        else .error .singularMatrix
  else .error .indexOutOfBounds

/-- Embedding of `Grid.entity_count`. -/
def entity_count (g : Grid) (codim : ℕ) : Except GridError ℕ :=
  if codim = 0 then .ok g.elements.length
  else if codim = 1 then .ok g.edges.length
  else if codim = 2 then .ok g.vertices.length
  else .error .invalidArgument

/-- A non-owning entity view handle: a codimension tag plus an index. -/
inductive EntityView
  | element (index : ℕ)
  | edge (index : ℕ)
  | vertex (index : ℕ)
deriving DecidableEq

/-- Embedding of `Grid.entity_iterator`: the finite sequence of views the
returned generator yields.  Each call builds the sequence afresh from the
(immutable) grid, and the grid is not modified. -/
def entity_iterator (g : Grid) (codim : ℕ) :
    Except GridError (List EntityView) :=
  if codim = 0 ∨ codim = 1 ∨ codim = 2 then
    if codim = 0 then .ok ((List.range g.elements.length).map EntityView.element)
    else if codim = 1 then .ok ((List.range g.edges.length).map EntityView.edge)
    else .ok ((List.range g.vertices.length).map EntityView.vertex)
  else .error .invalidArgument

/-- The three arrays `Grid.refine` assembles before calling the constructor:
new vertices (old ones, then one midpoint per edge in edge-index order), the
4 children per element in the fixed pattern, and the domain indices repeated
4 times. -/
def refine_arrays (g : Grid) : List Vec3 × List Elt × List ℕ :=
  let V := g.vertices.length
  let newVertices := g.vertices ++
    g.edges.map (fun p =>
      vsmul (1 / 2) (vadd (g.vertices.getD p.1 (0, 0, 0)) (g.vertices.getD p.2 (0, 0, 0))))
  let newElements :=
    (g.elements.zip g.elementEdges).flatMap (fun q =>
      [(q.1.1, q.2.1 + V, q.2.2.1 + V),
       (q.2.1 + V, q.1.2.1, q.2.2.2 + V),
       (q.2.2.2 + V, q.1.2.2, q.2.2.1 + V),
       (q.2.1 + V, q.2.2.2 + V, q.2.2.1 + V)])
  let newDomains := g.domainIndices.flatMap (fun d => [d, d, d, d])
  (newVertices, newElements, newDomains)

/-- Embedding of `Grid.refine`: build a brand-new grid from the refined
arrays through the full construction pipeline. -/
def Grid.refine (g : Grid) : Except GridError Grid :=
  buildGrid (refine_arrays g).1 (refine_arrays g).2.1 (refine_arrays g).2.2

/-! ### Lemmas about the index-search helpers -/

theorem first_index_of_eq_none_iff {α : Type} [DecidableEq α] (l : List α)
    (v : α) : first_index_of l v = none ↔ v ∉ l := by
  induction l with
  | nil => simp [first_index_of]
  | cons x rest ih =>
    by_cases h : x = v
    · simp [first_index_of, h]
    · simp only [first_index_of, if_neg h, Option.map_eq_none', ih,
        List.mem_cons, not_or]
      constructor
      · intro hv; exact ⟨fun hx => h hx.symm, hv⟩
      · intro hv; exact hv.2

theorem first_index_of_eq_some {α : Type} [DecidableEq α] :
    ∀ (l : List α) (v : α) (i : ℕ), first_index_of l v = some i →
      l[i]? = some v ∧ ∀ k < i, l[k]? ≠ some v := by
  intro l
  induction l with
  | nil => intro v i h; simp [first_index_of] at h
  | cons x rest ih =>
    intro v i h
    by_cases hx : x = v
    · simp only [first_index_of, if_pos hx, Option.some.injEq] at h
      subst h
      subst hx
      refine ⟨by simp, ?_⟩
      intro k hk
      exact absurd hk (Nat.not_lt_zero k)
    · simp only [first_index_of, if_neg hx, Option.map_eq_some'] at h
      obtain ⟨j, hj, rfl⟩ := h
      obtain ⟨hget, hmin⟩ := ih v j hj
      refine ⟨by simpa using hget, ?_⟩
      intro k hk
      cases k with
      | zero =>
        intro hc
        rw [List.getElem?_cons_zero] at hc
        exact hx (Option.some.inj hc)
      | succ k' =>
        have hk' : k' < j := Nat.lt_of_succ_lt_succ hk
        intro hc
        rw [List.getElem?_cons_succ] at hc
        exact hmin k' hk' hc

theorem first_index_of_isSome_of_mem {α : Type} [DecidableEq α]
    {l : List α} {v : α} (h : v ∈ l) : ∃ i, first_index_of l v = some i := by
  rcases hc : first_index_of l v with _ | i
  · exact absurd ((first_index_of_eq_none_iff l v).mp hc) (not_not_intro h)
  · exact ⟨i, rfl⟩

theorem find_first_aux_sound :
    ∀ (l a2 : List ℕ) (i0 : ℕ) (p : ℕ × ℕ), find_first_aux l a2 i0 = some p →
      i0 ≤ p.1 ∧ (∃ v, l[p.1 - i0]? = some v ∧ a2[p.2]? = some v) ∧
        ∀ k < p.1 - i0, ∀ w, l[k]? = some w → w ∉ a2 := by
  intro l
  induction l with
  | nil => intro a2 i0 p h; simp [find_first_aux] at h
  | cons x rest ih =>
    intro a2 i0 p h
    rcases hc : compare_array_to_value a2 x with _ | j
    · rw [find_first_aux, hc] at h
      obtain ⟨h1, ⟨v, hv1, hv2⟩, hmin⟩ := ih a2 (i0 + 1) p h
      have hlt : i0 < p.1 := h1
      refine ⟨Nat.le_of_lt hlt, ⟨v, ?_, hv2⟩, ?_⟩
      · have : p.1 - i0 = (p.1 - (i0 + 1)) + 1 := by omega
        rw [this]; simpa using hv1
      · intro k hk w hw
        cases k with
        | zero =>
          have hxw : x = w := by simpa using hw
          subst hxw
          exact (first_index_of_eq_none_iff a2 x).mp hc
        | succ k' =>
          have hk' : k' < p.1 - (i0 + 1) := by omega
          exact hmin k' hk' w (by simpa using hw)
    · rw [find_first_aux, hc] at h
      simp only [Option.some.injEq] at h
      subst h
      obtain ⟨hj, _⟩ := first_index_of_eq_some a2 x j hc
      exact ⟨Nat.le_refl _, ⟨x, by simp, hj⟩, by simp⟩

theorem find_first_aux_complete :
    ∀ (l a2 : List ℕ) (i0 : ℕ),
      (∃ (k : ℕ) (v : ℕ), l[k]? = some v ∧ v ∈ a2) →
      ∃ p, find_first_aux l a2 i0 = some p := by
  intro l
  induction l with
  | nil =>
    intro a2 i0 h
    obtain ⟨k, v, hk, -⟩ := h
    simp at hk
  | cons x rest ih =>
    intro a2 i0 h
    obtain ⟨k, v, hk, hv⟩ := h
    rcases hc : compare_array_to_value a2 x with _ | j
    · have hx : x ∉ a2 := (first_index_of_eq_none_iff a2 x).mp hc
      cases k with
      | zero =>
        have hxv : x = v := by simpa using hk
        subst hxv
        exact absurd hv hx
      | succ k' =>
        obtain ⟨p, hp⟩ := ih a2 (i0 + 1) ⟨k', v, by simpa using hk, hv⟩
        exact ⟨p, by rw [find_first_aux, hc]; exact hp⟩
    · exact ⟨(i0, j), by rw [find_first_aux, hc]⟩

theorem ffc_sound {a1 a2 : List ℕ} {s : ℕ} {p : ℕ × ℕ}
    (h : find_first_common_array_index_pair_from_position a1 a2 s = .ok p) :
    s ≤ p.1 ∧ (∃ v, a1[p.1]? = some v ∧ a2[p.2]? = some v) ∧
      ∀ k, s ≤ k → k < p.1 → ∀ w, a1[k]? = some w → w ∉ a2 := by
  rw [find_first_common_array_index_pair_from_position] at h
  rcases haux : find_first_aux (a1.drop s) a2 s with _ | q
  · rw [haux] at h; exact absurd h (by simp)
  · rw [haux] at h
    have hq : q = p := by simpa using h
    subst hq
    obtain ⟨h1, ⟨v, hv1, hv2⟩, hmin⟩ := find_first_aux_sound _ a2 s q haux
    have hdrop : ∀ k : ℕ, (a1.drop s)[k]? = a1[s + k]? := by
      intro k; rw [List.getElem?_drop]
    refine ⟨h1, ⟨v, ?_, hv2⟩, ?_⟩
    · rw [hdrop] at hv1
      rwa [Nat.add_sub_cancel' h1] at hv1
    · intro k hks hkp w hw
      have hlt : k - s < q.1 - s := by omega
      refine hmin (k - s) hlt w ?_
      rw [hdrop, Nat.add_sub_cancel' hks]
      exact hw

theorem ffc_complete {a1 a2 : List ℕ} {s : ℕ}
    (h : ∃ (k : ℕ) (v : ℕ), s ≤ k ∧ a1[k]? = some v ∧ v ∈ a2) :
    ∃ p, find_first_common_array_index_pair_from_position a1 a2 s = .ok p := by
  obtain ⟨k, v, hs, hk, hv⟩ := h
  have hmem : ∃ (k' : ℕ) (v' : ℕ), (a1.drop s)[k']? = some v' ∧ v' ∈ a2 := by
    refine ⟨k - s, v, ?_, hv⟩
    rw [List.getElem?_drop, Nat.add_sub_cancel' hs]
    exact hk
  obtain ⟨p, hp⟩ := find_first_aux_complete (a1.drop s) a2 s hmem
  exact ⟨p, by rw [find_first_common_array_index_pair_from_position, hp]⟩

theorem triple_list_nodup {t : ℕ × ℕ × ℕ} (h : triple_nodup t) :
    (triple_list t).Nodup := by
  obtain ⟨h1, h2, h3⟩ := h
  simp [triple_list, h1, h2, h3]

/-- Core of C1: on 3-entry columns with pairwise distinct entries sharing
exactly two values, `_find_two_common_array_index_pairs` finds both pairs,
the second strictly after the first. -/
theorem find_two_of_shared {A B : List ℕ} (_hA : A.Nodup) (_hB : B.Nodup)
    (hcard : (A.toFinset ∩ B.toFinset).card = 2) :
    ∃ i1 j1 i2 j2,
      find_two_common_array_index_pairs A B = .ok ((i1, j1), (i2, j2)) ∧
      i1 < i2 ∧
      (∃ v, A[i1]? = some v ∧ B[j1]? = some v) ∧
      (∃ w, A[i2]? = some w ∧ B[j2]? = some w) ∧
      find_first_common_array_index_pair_from_position A B (i1 + 1) =
        .ok (i2, j2) := by
  obtain ⟨v, w, hvw, hset⟩ := Finset.card_eq_two.mp hcard
  have hv : v ∈ A.toFinset ∩ B.toFinset := by rw [hset]; simp
  have hw : w ∈ A.toFinset ∩ B.toFinset := by rw [hset]; simp
  simp only [Finset.mem_inter, List.mem_toFinset] at hv hw
  obtain ⟨iv, hiv⟩ := List.mem_iff_getElem?.mp hv.1
  obtain ⟨iw, hiw⟩ := List.mem_iff_getElem?.mp hw.1
  obtain ⟨p1, hp1⟩ := @ffc_complete A B 0
    ⟨iv, v, Nat.zero_le _, hiv, hv.2⟩
  obtain ⟨-, ⟨u, hu1, hu2⟩, hmin⟩ := ffc_sound hp1
  have hivge : p1.1 ≤ iv := by
    by_contra hlt
    exact hmin iv (Nat.zero_le _) (Nat.lt_of_not_le hlt) v hiv hv.2
  have hiwge : p1.1 ≤ iw := by
    by_contra hlt
    exact hmin iw (Nat.zero_le _) (Nat.lt_of_not_le hlt) w hiw hw.2
  have hne : iv ≠ iw := by
    intro hc
    rw [hc, hiw] at hiv
    exact hvw (Option.some.inj hiv).symm
  have hsecond : ∃ (k : ℕ) (x : ℕ), p1.1 + 1 ≤ k ∧ A[k]? = some x ∧ x ∈ B := by
    rcases Nat.lt_or_ge p1.1 iv with hlt | hge
    · exact ⟨iv, v, hlt, hiv, hv.2⟩
    · have : p1.1 = iv := Nat.le_antisymm hivge hge
      have : iw ≠ p1.1 := fun hc => hne (by omega)
      exact ⟨iw, w, by omega, hiw, hw.2⟩
  obtain ⟨p2, hp2⟩ := ffc_complete hsecond
  obtain ⟨hle2, hval2, -⟩ := ffc_sound hp2
  refine ⟨p1.1, p1.2, p2.1, p2.2, ?_, by omega, ⟨u, hu1, hu2⟩, hval2, by simpa using hp2⟩
  simp only [find_two_common_array_index_pairs, hp1, hp2]

/-- C1: for every pair of elements classified edge-adjacent (two three-entry
columns, each with pairwise distinct vertex ids, sharing exactly two ids),
the adjacency builder records both local correspondences in its column
`(e0, e1, i1, i2, j1, j2)`: `i1 < i2`, `elements[i1, e0] = elements[j1, e1]`,
`elements[i2, e0] = elements[j2, e1]`, and the second pair is found by
resuming the search at position `i1 + 1`; if for a flagged pair the second
search fails, the `ValueError` that the spec calls `ConsistencyError`
propagates and grid construction fails. -/
theorem c1_edge_adjacency_records_both_pairs :
    (∀ (els : List Elt) (e0 e1 : ℕ),
      triple_nodup (els.getD e0 (0, 0, 0)) →
      triple_nodup (els.getD e1 (0, 0, 0)) →
      ((triple_list (els.getD e0 (0, 0, 0))).toFinset ∩
        (triple_list (els.getD e1 (0, 0, 0))).toFinset).card = 2 →
      ∃ i1 j1 i2 j2,
        edge_adjacency_column els (e0, e1) = .ok (e0, e1, i1, i2, j1, j2) ∧
        i1 < i2 ∧
        (∃ v, (triple_list (els.getD e0 (0, 0, 0)))[i1]? = some v ∧
              (triple_list (els.getD e1 (0, 0, 0)))[j1]? = some v) ∧
        (∃ w, (triple_list (els.getD e0 (0, 0, 0)))[i2]? = some w ∧
              (triple_list (els.getD e1 (0, 0, 0)))[j2]? = some w) ∧
        find_first_common_array_index_pair_from_position
          (triple_list (els.getD e0 (0, 0, 0)))
          (triple_list (els.getD e1 (0, 0, 0))) (i1 + 1) = .ok (i2, j2)) ∧
    (∀ (A B : List ℕ) (i1 j1 : ℕ),
      find_first_common_array_index_pair_from_position A B 0 = .ok (i1, j1) →
      find_first_common_array_index_pair_from_position A B (i1 + 1) =
        .error .consistencyError →
      find_two_common_array_index_pairs A B = .error .consistencyError) ∧
    (∀ (vs : List Vec3) (els : List Elt) (doms : List ℕ)
        (va : List (ℕ × ℕ × ℕ × ℕ)),
      (∀ el ∈ els, triple_in_bounds vs.length el) →
      find_vertex_adjacency els (element_filter vs.length els 1) = .ok va →
      find_edge_adjacency els (element_filter vs.length els 2) =
        .error .consistencyError →
      buildGrid vs els doms = .error .consistencyError) := by
  refine ⟨?_, ?_, ?_⟩
  · intro els e0 e1 h0 h1 hcard
    obtain ⟨i1, j1, i2, j2, htwo, hlt, hv, hw, hres⟩ :=
      find_two_of_shared (triple_list_nodup h0) (triple_list_nodup h1) hcard
    refine ⟨i1, j1, i2, j2, ?_, hlt, hv, hw, hres⟩
    simp only [edge_adjacency_column, htwo]
  · intro A B i1 j1 h1 h2
    simp only [find_two_common_array_index_pairs, h1, h2]
  · intro vs els doms va hb hva hea
    simp only [buildGrid, if_pos hb, hva, hea]

/-- Witness for C1 on a concrete flagged pair: elements `(0,1,2)` and
`(1,3,2)` share the two vertex ids 1 and 2. -/
theorem c1_witness :
    triple_nodup (([(0,1,2),(1,3,2)] : List Elt).getD 0 (0, 0, 0)) ∧
    triple_nodup (([(0,1,2),(1,3,2)] : List Elt).getD 1 (0, 0, 0)) ∧
    ∃ i1 j1 i2 j2,
      edge_adjacency_column [(0,1,2),(1,3,2)] (0, 1) =
        .ok (0, 1, i1, i2, j1, j2) ∧
      i1 < i2 ∧
      (∃ v, (triple_list (([(0,1,2),(1,3,2)] : List Elt).getD 0 (0, 0, 0)))[i1]? = some v ∧
            (triple_list (([(0,1,2),(1,3,2)] : List Elt).getD 1 (0, 0, 0)))[j1]? = some v) ∧
      (∃ w, (triple_list (([(0,1,2),(1,3,2)] : List Elt).getD 0 (0, 0, 0)))[i2]? = some w ∧
            (triple_list (([(0,1,2),(1,3,2)] : List Elt).getD 1 (0, 0, 0)))[j2]? = some w) ∧
      find_first_common_array_index_pair_from_position
        (triple_list (([(0,1,2),(1,3,2)] : List Elt).getD 0 (0, 0, 0)))
        (triple_list (([(0,1,2),(1,3,2)] : List Elt).getD 1 (0, 0, 0)))
        (i1 + 1) = .ok (i2, j2) :=
  ⟨by decide, by decide,
    c1_edge_adjacency_records_both_pairs.1 [(0,1,2),(1,3,2)] 0 1
      (by decide) (by decide) (by decide)⟩

/-- C9: `entity_count` maps codimension 0/1/2 to the element/edge/vertex
counts; any other codimension makes both `entity_count` and
`entity_iterator` fail with the error the spec calls
`InvalidArgumentError` (both are pure functions of the immutable grid, so
the mesh state is unchanged and every call to the iterator rebuilds the
same fresh sequence); for a valid codimension the iterator yields views
with indices `0..count-1` in order. -/
theorem c9_entity_count_and_iterator (g : Grid) (codim : ℕ) :
    (entity_count g 0 = .ok g.elements.length ∧
     entity_count g 1 = .ok g.edges.length ∧
     entity_count g 2 = .ok g.vertices.length) ∧
    (¬(codim = 0 ∨ codim = 1 ∨ codim = 2) →
      entity_count g codim = .error .invalidArgument ∧
      entity_iterator g codim = .error .invalidArgument) ∧
    (∀ (n : ℕ) (views : List EntityView),
      entity_count g codim = .ok n → entity_iterator g codim = .ok views →
      views.length = n ∧
      ∀ k, k < n → views[k]? = some
        (if codim = 0 then EntityView.element k
         else if codim = 1 then EntityView.edge k
         else EntityView.vertex k)) := by
  refine ⟨⟨by simp [entity_count], by simp [entity_count], by simp [entity_count]⟩, ?_, ?_⟩
  · intro h
    push_neg at h
    obtain ⟨h0, h1, h2⟩ := h
    constructor
    · simp [entity_count, h0, h1, h2]
    · simp [entity_iterator, h0, h1, h2]
  · intro n views hc hi
    by_cases h0 : codim = 0
    · subst h0
      simp [entity_count] at hc
      simp [entity_iterator] at hi
      subst hc
      subst hi
      refine ⟨by simp, ?_⟩
      intro k hk
      simp [List.getElem?_map, List.getElem?_range, hk]
    · by_cases h1 : codim = 1
      · subst h1
        simp [entity_count] at hc
        simp [entity_iterator] at hi
        subst hc
        subst hi
        refine ⟨by simp, ?_⟩
        intro k hk
        simp [List.getElem?_map, List.getElem?_range, hk]
      · by_cases h2 : codim = 2
        · subst h2
          simp [entity_count] at hc
          simp [entity_iterator] at hi
          subst hc
          subst hi
          refine ⟨by simp, ?_⟩
          intro k hk
          simp [List.getElem?_map, List.getElem?_range, hk]
        · rw [entity_count, if_neg h0, if_neg h1, if_neg h2] at hc
          exact absurd hc (by simp)

/-- Witness for C9 at a concrete one-triangle grid and the invalid
codimension 3. -/
theorem c9_witness :
    ¬((3:ℕ) = 0 ∨ (3:ℕ) = 1 ∨ (3:ℕ) = 2) ∧
    (entity_count
        (Grid.mk [(0,0,0),(1,0,0),(0,1,0)] [(0,1,2)] [0]
          [(0,1),(0,2),(1,2)] [(0,1,2)] [] [] [true,true,true]
          [true,true,true] [[0],[0],[0]]) 3 = .error .invalidArgument ∧
      entity_iterator
        (Grid.mk [(0,0,0),(1,0,0),(0,1,0)] [(0,1,2)] [0]
          [(0,1),(0,2),(1,2)] [(0,1,2)] [] [] [true,true,true]
          [true,true,true] [[0],[0],[0]]) 3 = .error .invalidArgument) :=
  ⟨by decide,
    (c9_entity_count_and_iterator
      (Grid.mk [(0,0,0),(1,0,0),(0,1,0)] [(0,1,2)] [0]
        [(0,1),(0,2),(1,2)] [(0,1,2)] [] [] [true,true,true]
        [true,true,true] [[0],[0],[0]]) 3).2.1 (by decide)⟩

/-! ### Lemmas about edge enumeration -/

theorem getElem?_append_of_some {α : Type} {l t : List α} {i : ℕ} {a : α}
    (h : l[i]? = some a) : (l ++ t)[i]? = some a := by
  have hi : i < l.length := by
    by_contra hge
    rw [List.getElem?_eq_none (Nat.le_of_not_lt hge)] at h
    exact absurd h (by simp)
  rw [List.getElem?_append_left hi]
  exact h

theorem enum_edge_step_fst (es : List (ℕ × ℕ)) (k : ℕ × ℕ) :
    (enum_edge_step es k).1 = dedup_step es k := by
  rcases h : first_index_of es k with _ | i
  · have hk : k ∉ es := (first_index_of_eq_none_iff es k).mp h
    simp only [enum_edge_step, h, dedup_step, if_neg hk]
  · have hk : k ∈ es := by
      by_contra hn
      rw [(first_index_of_eq_none_iff es k).mpr hn] at h
      exact absurd h (by simp)
    simp only [enum_edge_step, h, dedup_step, if_pos hk]

theorem enum_edge_step_points (es : List (ℕ × ℕ)) (k : ℕ × ℕ) :
    (enum_edge_step es k).1[(enum_edge_step es k).2]? = some k := by
  rcases h : first_index_of es k with _ | i
  · simp only [enum_edge_step, h]
    exact List.getElem?_concat_length es k
  · simp only [enum_edge_step, h]
    exact (first_index_of_eq_some es k i h).1

theorem dedup_step_extend (es : List (ℕ × ℕ)) (k : ℕ × ℕ) :
    ∃ t, dedup_step es k = es ++ t := by
  by_cases hk : k ∈ es
  · exact ⟨[], by simp [dedup_step, if_pos hk]⟩
  · exact ⟨[k], by simp [dedup_step, if_neg hk]⟩

theorem dedup_foldl_extend :
    ∀ (s es : List (ℕ × ℕ)), ∃ t, s.foldl dedup_step es = es ++ t := by
  intro s
  induction s with
  | nil => exact fun es => ⟨[], by simp⟩
  | cons k s ih =>
    intro es
    obtain ⟨t1, h1⟩ := dedup_step_extend es k
    obtain ⟨t2, h2⟩ := ih (dedup_step es k)
    exact ⟨t1 ++ t2, by rw [List.foldl_cons, h2, h1, List.append_assoc]⟩

theorem dedup_step_nodup {es : List (ℕ × ℕ)} (h : es.Nodup) (k : ℕ × ℕ) :
    (dedup_step es k).Nodup := by
  by_cases hk : k ∈ es
  · rwa [dedup_step, if_pos hk]
  · rw [dedup_step, if_neg hk]
    refine List.Nodup.append h (List.nodup_singleton k) ?_
    intro a ha hb
    rw [List.mem_singleton] at hb
    subst hb
    exact hk ha

theorem dedup_foldl_nodup :
    ∀ (s es : List (ℕ × ℕ)), es.Nodup → (s.foldl dedup_step es).Nodup := by
  intro s
  induction s with
  | nil => intro es h; simpa using h
  | cons k s ih => intro es h; exact ih _ (dedup_step_nodup h k)

theorem dedup_step_mem {p : ℕ × ℕ} (es : List (ℕ × ℕ)) (k : ℕ × ℕ) :
    p ∈ dedup_step es k ↔ p ∈ es ∨ p = k := by
  by_cases hk : k ∈ es
  · rw [dedup_step, if_pos hk]
    constructor
    · exact Or.inl
    · rintro (h | rfl)
      · exact h
      · exact hk
  · rw [dedup_step, if_neg hk]
    simp

theorem dedup_foldl_mem :
    ∀ (s es : List (ℕ × ℕ)) (p : ℕ × ℕ),
      p ∈ s.foldl dedup_step es ↔ p ∈ es ∨ p ∈ s := by
  intro s
  induction s with
  | nil => simp
  | cons k s ih =>
    intro es p
    rw [List.foldl_cons, ih, dedup_step_mem]
    simp only [List.mem_cons]
    tauto

theorem enum_element_spec (es : List (ℕ × ℕ)) (el : Elt) :
    (enum_element es el).1 =
      [vertices_from_edge_index el 0, vertices_from_edge_index el 1,
       vertices_from_edge_index el 2].foldl dedup_step es ∧
    (∃ t, (enum_element es el).1 = es ++ t) ∧
    (enum_element es el).1[(enum_element es el).2.1]? =
      some (vertices_from_edge_index el 0) ∧
    (enum_element es el).1[(enum_element es el).2.2.1]? =
      some (vertices_from_edge_index el 1) ∧
    (enum_element es el).1[(enum_element es el).2.2.2]? =
      some (vertices_from_edge_index el 2) := by
  have e0p := enum_edge_step_points es (vertices_from_edge_index el 0)
  have e1f := enum_edge_step_fst
    (enum_edge_step es (vertices_from_edge_index el 0)).1
    (vertices_from_edge_index el 1)
  have e1p := enum_edge_step_points
    (enum_edge_step es (vertices_from_edge_index el 0)).1
    (vertices_from_edge_index el 1)
  have e2f := enum_edge_step_fst
    (enum_edge_step (enum_edge_step es (vertices_from_edge_index el 0)).1
      (vertices_from_edge_index el 1)).1
    (vertices_from_edge_index el 2)
  have e2p := enum_edge_step_points
    (enum_edge_step (enum_edge_step es (vertices_from_edge_index el 0)).1
      (vertices_from_edge_index el 1)).1
    (vertices_from_edge_index el 2)
  obtain ⟨u1, hu1⟩ := dedup_step_extend
    (enum_edge_step es (vertices_from_edge_index el 0)).1
    (vertices_from_edge_index el 1)
  obtain ⟨u2, hu2⟩ := dedup_step_extend
    (enum_edge_step (enum_edge_step es (vertices_from_edge_index el 0)).1
      (vertices_from_edge_index el 1)).1
    (vertices_from_edge_index el 2)
  have hfst : (enum_element es el).1 =
      (enum_edge_step (enum_edge_step (enum_edge_step es
        (vertices_from_edge_index el 0)).1
        (vertices_from_edge_index el 1)).1
        (vertices_from_edge_index el 2)).1 := rfl
  have h21 : (enum_edge_step (enum_edge_step (enum_edge_step es
        (vertices_from_edge_index el 0)).1
        (vertices_from_edge_index el 1)).1
        (vertices_from_edge_index el 2)).1 =
      (enum_edge_step (enum_edge_step es (vertices_from_edge_index el 0)).1
        (vertices_from_edge_index el 1)).1 ++ u2 := by
    rw [e2f, hu2]
  have h10 : (enum_edge_step (enum_edge_step es
        (vertices_from_edge_index el 0)).1
        (vertices_from_edge_index el 1)).1 =
      (enum_edge_step es (vertices_from_edge_index el 0)).1 ++ u1 := by
    rw [e1f, hu1]
  refine ⟨?_, ?_, ?_, ?_, ?_⟩
  · rw [hfst, e2f, e1f, enum_edge_step_fst]
    simp [List.foldl_cons]
  · obtain ⟨u0, hu0⟩ := dedup_step_extend es (vertices_from_edge_index el 0)
    refine ⟨u0 ++ u1 ++ u2, ?_⟩
    rw [hfst, h21, h10, enum_edge_step_fst, hu0]
    simp [List.append_assoc]
  · rw [hfst, h21, h10]
    exact getElem?_append_of_some (getElem?_append_of_some e0p)
  · rw [hfst, h21]
    exact getElem?_append_of_some e1p
  · rw [hfst]
    exact e2p

theorem enum_go_spec :
    ∀ (rest : List Elt) (es : List (ℕ × ℕ)) (ee : List (ℕ × ℕ × ℕ)),
      (enum_go rest es ee).1 = (key_stream rest).foldl dedup_step es ∧
      (∃ t, (enum_go rest es ee).1 = es ++ t) ∧
      (enum_go rest es ee).2.length = ee.length + rest.length ∧
      (∀ k, k < ee.length → (enum_go rest es ee).2[k]? = ee[k]?) ∧
      (∀ k, k < rest.length → ∃ t : ℕ × ℕ × ℕ,
        (enum_go rest es ee).2[ee.length + k]? = some t ∧
        (enum_go rest es ee).1[t.1]? =
          some (vertices_from_edge_index (rest.getD k (0, 0, 0)) 0) ∧
        (enum_go rest es ee).1[t.2.1]? =
          some (vertices_from_edge_index (rest.getD k (0, 0, 0)) 1) ∧
        (enum_go rest es ee).1[t.2.2]? =
          some (vertices_from_edge_index (rest.getD k (0, 0, 0)) 2)) := by
  intro rest
  induction rest with
  | nil =>
    intro es ee
    refine ⟨by simp [enum_go, key_stream], ⟨[], by simp [enum_go]⟩,
      by simp [enum_go], ?_, ?_⟩
    · intro k _; rfl
    · intro k hk; exact absurd hk (by simp)
  | cons el rest ih =>
    intro es ee
    have hgo : enum_go (el :: rest) es ee =
        enum_go rest (enum_element es el).1 (ee ++ [(enum_element es el).2]) := rfl
    obtain ⟨hfold, ⟨te, hte⟩, hlen, hpre, hnew⟩ :=
      ih (enum_element es el).1 (ee ++ [(enum_element es el).2])
    obtain ⟨hefold, ⟨t0, ht0⟩, hp0, hp1, hp2⟩ := enum_element_spec es el
    refine ⟨?_, ?_, ?_, ?_, ?_⟩
    · rw [hgo, hfold, hefold]
      conv_rhs => rw [key_stream, List.flatMap_cons, List.foldl_append]
      rfl
    · exact ⟨t0 ++ te, by rw [hgo, hte, ht0, List.append_assoc]⟩
    · rw [hgo, hlen]
      simp only [List.length_append, List.length_cons, List.length_nil]
      omega
    · intro k hk
      have hk' : k < (ee ++ [(enum_element es el).2]).length := by
        rw [List.length_append, List.length_cons, List.length_nil]
        omega
      rw [hgo, hpre k hk', List.getElem?_append_left hk]
    · intro k hk
      rw [List.length_cons] at hk
      cases k with
      | zero =>
        refine ⟨(enum_element es el).2, ?_, ?_, ?_, ?_⟩
        · rw [hgo, Nat.add_zero,
            hpre ee.length (by
              rw [List.length_append, List.length_cons, List.length_nil]
              omega),
            List.getElem?_concat_length]
        · rw [hgo, hte]
          exact getElem?_append_of_some hp0
        · rw [hgo, hte]
          exact getElem?_append_of_some hp1
        · rw [hgo, hte]
          exact getElem?_append_of_some hp2
      | succ k' =>
        obtain ⟨t, hget, h0, h1, h2⟩ := hnew k' (by omega)
        refine ⟨t, ?_, ?_, ?_, ?_⟩
        · rw [hgo]
          have harith : ee.length + (k' + 1) =
              (ee ++ [(enum_element es el).2]).length + k' := by
            rw [List.length_append, List.length_cons, List.length_nil]
            omega
          rw [harith]
          exact hget
        · rw [hgo]
          simpa using h0
        · rw [hgo]
          simpa using h1
        · rw [hgo]
          simpa using h2

theorem sort_values_le (p : ℕ × ℕ) : (sort_values p).1 ≤ (sort_values p).2 := by
  rcases p with ⟨a, b⟩
  by_cases h : a > b
  · rw [sort_values, if_pos h]
    exact Nat.le_of_lt h
  · rw [sort_values, if_neg h]
    exact Nat.le_of_not_lt h

/-- C3: edge enumeration traverses elements `0..M-1` and local edges 0, 1, 2
(local edge 0 = `(v0,v1)`, 1 = `(v2,v0)`, 2 = `(v1,v2)`, built into
`vertices_from_edge_index`); the `edges` list contains exactly the distinct
canonical (min, max) vertex pairs, each exactly once, in first-encounter
order; `element_edges` entry `l` of element `e` is a global index whose
stored pair is the canonical pair of local edge `l` of element `e`; and
`number_of_edges` equals the count of distinct canonical pairs. -/
theorem c3_edge_enumeration (els : List Elt)
    (_hval : ∀ el ∈ els, triple_nodup el) :
    (enumerate_edges els).1 = first_encounter_dedup (key_stream els) ∧
    (enumerate_edges els).1.Nodup ∧
    (∀ p, p ∈ (enumerate_edges els).1 ↔ p ∈ key_stream els) ∧
    (∀ p ∈ (enumerate_edges els).1, p.1 ≤ p.2) ∧
    (enumerate_edges els).2.length = els.length ∧
    (∀ e, e < els.length →
      (enumerate_edges els).1[((enumerate_edges els).2.getD e (0, 0, 0)).1]? =
        some (vertices_from_edge_index (els.getD e (0, 0, 0)) 0) ∧
      (enumerate_edges els).1[((enumerate_edges els).2.getD e (0, 0, 0)).2.1]? =
        some (vertices_from_edge_index (els.getD e (0, 0, 0)) 1) ∧
      (enumerate_edges els).1[((enumerate_edges els).2.getD e (0, 0, 0)).2.2]? =
        some (vertices_from_edge_index (els.getD e (0, 0, 0)) 2)) ∧
    (enumerate_edges els).1.length = (key_stream els).toFinset.card := by
  obtain ⟨hfold, -, hlen, -, hnew⟩ := enum_go_spec els [] []
  have hfold' : (enumerate_edges els).1 =
      (key_stream els).foldl dedup_step [] := hfold
  have hnodup : (enumerate_edges els).1.Nodup := by
    rw [hfold']
    exact dedup_foldl_nodup _ _ List.nodup_nil
  have hmem : ∀ p, p ∈ (enumerate_edges els).1 ↔ p ∈ key_stream els := by
    intro p
    rw [hfold', dedup_foldl_mem]
    simp
  refine ⟨hfold', hnodup, hmem, ?_, by simpa using hlen, ?_, ?_⟩
  · intro p hp
    have hks : p ∈ key_stream els := (hmem p).mp hp
    rw [key_stream, List.mem_flatMap] at hks
    obtain ⟨el, -, hpel⟩ := hks
    simp only [List.mem_cons, List.mem_singleton] at hpel
    rcases hpel with h | h | h | h
    all_goals first
      | (rw [h, vertices_from_edge_index]; exact sort_values_le _)
      | (exact absurd h (List.not_mem_nil p))
  · intro e he
    obtain ⟨t, hget, h0, h1, h2⟩ := hnew e (by simpa using he)
    have hgetD : (enumerate_edges els).2.getD e (0, 0, 0) = t := by
      rw [List.getD_eq_getElem?_getD]
      have : (enumerate_edges els).2[e]? = some t := by
        have := hget
        rwa [List.length_nil, Nat.zero_add] at this
      rw [this]
      rfl
    rw [hgetD]
    exact ⟨h0, h1, h2⟩
  · rw [← List.toFinset_card_of_nodup hnodup]
    congr 1
    ext p
    simp only [List.mem_toFinset]
    exact hmem p

/-- Witness for C3 on a concrete two-element mesh. -/
theorem c3_witness :
    (∀ el ∈ ([(0,1,2),(1,3,2)] : List Elt), triple_nodup el) ∧
    (enumerate_edges [(0,1,2),(1,3,2)]).1.length =
      (key_stream [(0,1,2),(1,3,2)]).toFinset.card :=
  ⟨by decide,
    (c3_edge_enumeration [(0,1,2),(1,3,2)] (by decide)).2.2.2.2.2.2⟩

/-! ### Lemmas about refinement -/

theorem getElem?_flatMap_const_length {α β : Type} (n : ℕ)
    (f : α → List β) (hf : ∀ a, (f a).length = n) :
    ∀ (l : List α) (e k : ℕ), k < n →
      (l.flatMap f)[n * e + k]? = (l[e]?).bind (fun a => (f a)[k]?) := by
  intro l
  induction l with
  | nil => intro e k _; simp
  | cons a l ih =>
    intro e k hk
    rw [List.flatMap_cons]
    cases e with
    | zero =>
      rw [Nat.mul_zero, Nat.zero_add,
        List.getElem?_append_left (by rw [hf]; exact hk)]
      simp
    | succ e' =>
      have hsplit : n * (e' + 1) + k = n + (n * e' + k) := by ring
      have hlen : (f a).length ≤ n * (e' + 1) + k := by
        rw [hf, hsplit]
        exact Nat.le_add_right n _
      rw [List.getElem?_append_right hlen, hf, hsplit,
        Nat.add_sub_cancel_left]
      simpa using ih e' k hk

theorem buildGrid_ok_stores {vs : List Vec3} {els : List Elt} {doms : List ℕ}
    {g' : Grid} (h : buildGrid vs els doms = .ok g') :
    g'.vertices = vs ∧ g'.elements = els ∧ g'.domainIndices = doms ∧
    g'.edges = (enumerate_edges els).1 ∧
    g'.elementEdges = (enumerate_edges els).2 := by
  simp only [buildGrid] at h
  by_cases h1 : ∀ el ∈ els, triple_in_bounds vs.length el
  · rw [if_pos h1] at h
    rcases hva : find_vertex_adjacency els (element_filter vs.length els 1) with e | va
    · simp only [hva] at h
      exact absurd h (by simp)
    · simp only [hva] at h
      rcases hea : find_edge_adjacency els (element_filter vs.length els 2) with e | ea
      · simp only [hea] at h
        exact absurd h (by simp)
      · simp only [hea] at h
        by_cases h2 : ∀ e ∈ List.range els.length, gram_det vs els e ≠ 0
        · rw [if_pos h2] at h
          have hrec := Except.ok.inj h
          rw [← hrec]
          exact ⟨rfl, rfl, rfl, rfl, rfl⟩
        · rw [if_neg h2] at h; exact absurd h (by simp)
  · rw [if_neg h1] at h; exact absurd h (by simp)

/-- C4: `refine` produces 4M elements and V+E vertices; old vertices keep
their indices, new vertex `V+e` is the midpoint of edge `e` (in edge-index
order); parent `i`'s children occupy positions `4i..4i+3` with the fixed
pattern `(v0, mid01, mid20)`, `(mid01, v1, mid12)`, `(mid12, v2, mid20)`,
`(mid01, mid12, mid20)`, the midpoints resolved through `element_edges`
rows 0, 1, 2; each child's domain index equals its parent's; and the
refined mesh is built from exactly these arrays by the full construction
pipeline (which stores them verbatim on success). -/
theorem c4_refine (g : Grid)
    (hee : g.elementEdges.length = g.elements.length)
    (hdom : g.domainIndices.length = g.elements.length) :
    (refine_arrays g).2.1.length = 4 * g.elements.length ∧
    (refine_arrays g).1.length = g.vertices.length + g.edges.length ∧
    (∀ i, i < g.vertices.length → (refine_arrays g).1[i]? = g.vertices[i]?) ∧
    (∀ e, (refine_arrays g).1[g.vertices.length + e]? =
      (g.edges[e]?).map (fun p =>
        vsmul (1 / 2) (vadd (g.vertices.getD p.1 (0, 0, 0))
          (g.vertices.getD p.2 (0, 0, 0))))) ∧
    (∀ i, i < g.elements.length →
      (refine_arrays g).2.1[4 * i]? = some
        ((g.elements.getD i (0, 0, 0)).1,
         (g.elementEdges.getD i (0, 0, 0)).1 + g.vertices.length,
         (g.elementEdges.getD i (0, 0, 0)).2.1 + g.vertices.length) ∧
      (refine_arrays g).2.1[4 * i + 1]? = some
        ((g.elementEdges.getD i (0, 0, 0)).1 + g.vertices.length,
         (g.elements.getD i (0, 0, 0)).2.1,
         (g.elementEdges.getD i (0, 0, 0)).2.2 + g.vertices.length) ∧
      (refine_arrays g).2.1[4 * i + 2]? = some
        ((g.elementEdges.getD i (0, 0, 0)).2.2 + g.vertices.length,
         (g.elements.getD i (0, 0, 0)).2.2,
         (g.elementEdges.getD i (0, 0, 0)).2.1 + g.vertices.length) ∧
      (refine_arrays g).2.1[4 * i + 3]? = some
        ((g.elementEdges.getD i (0, 0, 0)).1 + g.vertices.length,
         (g.elementEdges.getD i (0, 0, 0)).2.2 + g.vertices.length,
         (g.elementEdges.getD i (0, 0, 0)).2.1 + g.vertices.length)) ∧
    (∀ i k, i < g.elements.length → k < 4 →
      (refine_arrays g).2.2[4 * i + k]? = some (g.domainIndices.getD i 0)) ∧
    g.refine = buildGrid (refine_arrays g).1 (refine_arrays g).2.1
      (refine_arrays g).2.2 ∧
    (∀ g', g.refine = .ok g' →
      g'.vertices = (refine_arrays g).1 ∧
      g'.elements = (refine_arrays g).2.1 ∧
      g'.domainIndices = (refine_arrays g).2.2) := by
  have hblock : ∀ (q : Elt × (ℕ × ℕ × ℕ)),
      ([((q.1.1, q.2.1 + g.vertices.length, q.2.2.1 + g.vertices.length) : Elt),
        (q.2.1 + g.vertices.length, q.1.2.1, q.2.2.2 + g.vertices.length),
        (q.2.2.2 + g.vertices.length, q.1.2.2, q.2.2.1 + g.vertices.length),
        (q.2.1 + g.vertices.length, q.2.2.2 + g.vertices.length,
          q.2.2.1 + g.vertices.length)]).length = 4 := fun _ => rfl
  have hzip : ∀ i, i < g.elements.length →
      (g.elements.zip g.elementEdges)[i]? =
        some (g.elements.getD i (0, 0, 0), g.elementEdges.getD i (0, 0, 0)) := by
    intro i hi
    have hilt : i < (g.elements.zip g.elementEdges).length := by
      rw [List.length_zip, hee]
      exact lt_min (by omega) (by omega)
    rw [List.getElem?_eq_getElem hilt, List.getElem_zip]
    have h1 : i < g.elements.length := hi
    have h2 : i < g.elementEdges.length := by omega
    rw [List.getD_eq_getElem?_getD, List.getD_eq_getElem?_getD,
      List.getElem?_eq_getElem h1, List.getElem?_eq_getElem h2]
    rfl
  refine ⟨?_, ?_, ?_, ?_, ?_, ?_, rfl, ?_⟩
  · show ((g.elements.zip g.elementEdges).flatMap _).length = 4 * g.elements.length
    rw [List.length_flatMap]
    have : ∀ q ∈ g.elements.zip g.elementEdges,
        (List.length ∘ (fun q : Elt × (ℕ × ℕ × ℕ) =>
          [((q.1.1, q.2.1 + g.vertices.length, q.2.2.1 + g.vertices.length) : Elt),
           (q.2.1 + g.vertices.length, q.1.2.1, q.2.2.2 + g.vertices.length),
           (q.2.2.2 + g.vertices.length, q.1.2.2, q.2.2.1 + g.vertices.length),
           (q.2.1 + g.vertices.length, q.2.2.2 + g.vertices.length,
             q.2.2.1 + g.vertices.length)])) q = 4 := fun _ _ => rfl
    rw [List.map_congr_left this, List.map_const', List.sum_replicate, smul_eq_mul,
      List.length_zip, hee]
    omega
  · show (g.vertices ++ g.edges.map _).length = _
    rw [List.length_append, List.length_map]
  · intro i hi
    exact List.getElem?_append_left hi
  · intro e
    show (g.vertices ++ g.edges.map _)[g.vertices.length + e]? = _
    rw [List.getElem?_append_right (Nat.le_add_right _ _),
      Nat.add_sub_cancel_left, List.getElem?_map]
  · intro i hi
    have h0 := getElem?_flatMap_const_length 4 _ hblock
      (g.elements.zip g.elementEdges) i 0 (by omega)
    have h1 := getElem?_flatMap_const_length 4 _ hblock
      (g.elements.zip g.elementEdges) i 1 (by omega)
    have h2 := getElem?_flatMap_const_length 4 _ hblock
      (g.elements.zip g.elementEdges) i 2 (by omega)
    have h3 := getElem?_flatMap_const_length 4 _ hblock
      (g.elements.zip g.elementEdges) i 3 (by omega)
    rw [Nat.add_zero] at h0
    refine ⟨?_, ?_, ?_, ?_⟩
    · rw [show (refine_arrays g).2.1[4 * i]? =
          ((g.elements.zip g.elementEdges).flatMap _)[4 * i]? from rfl, h0,
        hzip i hi]
      rfl
    · rw [show (refine_arrays g).2.1[4 * i + 1]? =
          ((g.elements.zip g.elementEdges).flatMap _)[4 * i + 1]? from rfl, h1,
        hzip i hi]
      rfl
    · rw [show (refine_arrays g).2.1[4 * i + 2]? =
          ((g.elements.zip g.elementEdges).flatMap _)[4 * i + 2]? from rfl, h2,
        hzip i hi]
      rfl
    · rw [show (refine_arrays g).2.1[4 * i + 3]? =
          ((g.elements.zip g.elementEdges).flatMap _)[4 * i + 3]? from rfl, h3,
        hzip i hi]
      rfl
  · intro i k hi hk
    have hd := getElem?_flatMap_const_length 4
      (fun d : ℕ => [d, d, d, d]) (fun _ => rfl) g.domainIndices i k hk
    rw [show (refine_arrays g).2.2[4 * i + k]? =
        (g.domainIndices.flatMap (fun d => [d, d, d, d]))[4 * i + k]? from rfl,
      hd, List.getElem?_eq_getElem (show i < g.domainIndices.length by omega)]
    have : (g.domainIndices.getD i 0) = g.domainIndices[i] := by
      rw [List.getD_eq_getElem?_getD,
        List.getElem?_eq_getElem (show i < g.domainIndices.length by omega)]
      rfl
    rw [this]
    interval_cases k <;> rfl
  · intro g' hg'
    obtain ⟨hv, he, hd, -, -⟩ := buildGrid_ok_stores hg'
    exact ⟨hv, he, hd⟩

/-- Witness for C4 at a concrete one-triangle grid. -/
theorem c4_witness :
    ((Grid.mk [(0,0,0),(1,0,0),(0,1,0)] [(0,1,2)] [7]
        [(0,1),(0,2),(1,2)] [(0,1,2)] [] [] [true,true,true]
        [true,true,true] [[0],[0],[0]]).elementEdges.length =
      (Grid.mk [(0,0,0),(1,0,0),(0,1,0)] [(0,1,2)] [7]
        [(0,1),(0,2),(1,2)] [(0,1,2)] [] [] [true,true,true]
        [true,true,true] [[0],[0],[0]]).elements.length) ∧
    (refine_arrays (Grid.mk [(0,0,0),(1,0,0),(0,1,0)] [(0,1,2)] [7]
        [(0,1),(0,2),(1,2)] [(0,1,2)] [] [] [true,true,true]
        [true,true,true] [[0],[0],[0]])).2.1.length =
      4 * (Grid.mk [(0,0,0),(1,0,0),(0,1,0)] [(0,1,2)] [7]
        [(0,1),(0,2),(1,2)] [(0,1,2)] [] [] [true,true,true]
        [true,true,true] [[0],[0],[0]]).elements.length :=
  ⟨rfl,
    (c4_refine (Grid.mk [(0,0,0),(1,0,0),(0,1,0)] [(0,1,2)] [7]
        [(0,1),(0,2),(1,2)] [(0,1,2)] [] [] [true,true,true]
        [true,true,true] [[0],[0],[0]]) rfl rfl).1⟩

/-! ### Lemmas about edge neighbors and boundary information -/

theorem append_neighbor_length (acc : List (List ℕ)) (e m : ℕ) :
    (append_neighbor acc e m).length = acc.length := by
  rw [append_neighbor, List.length_set]

theorem append_neighbor_getD (acc : List (List ℕ)) (e m i : ℕ)
    (hi : i < acc.length) :
    (append_neighbor acc e m).getD i [] =
      if e = i then acc.getD i [] ++ [m] else acc.getD i [] := by
  by_cases h : e = i
  · subst h
    rw [append_neighbor, if_pos rfl, List.getD_eq_getElem?_getD,
      List.getElem?_set_self hi]
    rw [List.getD_eq_getElem?_getD]
    rfl
  · rw [append_neighbor, if_neg h, List.getD_eq_getElem?_getD,
      List.getElem?_set_ne h, List.getD_eq_getElem?_getD]

theorem triple_append_getD (acc : List (List ℕ)) (t : ℕ × ℕ × ℕ) (m e : ℕ)
    (he : e < acc.length) :
    (append_neighbor (append_neighbor (append_neighbor acc t.1 m) t.2.1 m)
        t.2.2 m).getD e [] =
      acc.getD e [] ++ List.replicate ((triple_list t).count e) m := by
  have l1 : (append_neighbor acc t.1 m).length = acc.length :=
    append_neighbor_length _ _ _
  have l2 : (append_neighbor (append_neighbor acc t.1 m) t.2.1 m).length =
      acc.length := by rw [append_neighbor_length, l1]
  rw [append_neighbor_getD _ _ _ _ (by rw [l2]; exact he),
    append_neighbor_getD _ _ _ _ (by rw [l1]; exact he),
    append_neighbor_getD _ _ _ _ he]
  by_cases h1 : t.1 = e <;> by_cases h2 : t.2.1 = e <;> by_cases h3 : t.2.2 = e <;>
    simp [h1, h2, h3, triple_list, List.count_cons, List.count_nil,
      List.replicate_succ, List.append_assoc]

theorem sorted_le_replicate (n : ℕ) (a : ℕ) :
    List.Sorted (· ≤ ·) (List.replicate n a) := by
  induction n with
  | zero => simp
  | succ n ih =>
    rw [List.replicate_succ, List.sorted_cons]
    refine ⟨?_, ih⟩
    intro b hb
    rw [List.mem_replicate] at hb
    omega

theorem edge_nb_go_spec :
    ∀ (rest : List (ℕ × ℕ × ℕ)) (m0 : ℕ) (acc : List (List ℕ)),
      (edge_nb_go rest m0 acc).length = acc.length ∧
      ∀ e, e < acc.length →
        ∃ tail : List ℕ,
          (edge_nb_go rest m0 acc).getD e [] = acc.getD e [] ++ tail ∧
          (∀ x ∈ tail, m0 ≤ x ∧ x < m0 + rest.length) ∧
          List.Sorted (· ≤ ·) tail ∧
          (∀ m, m < rest.length → tail.count (m0 + m) = count_refs rest m e) ∧
          tail.length = ∑ m ∈ Finset.range rest.length, count_refs rest m e := by
  intro rest
  induction rest with
  | nil =>
    intro m0 acc
    refine ⟨rfl, ?_⟩
    intro e _
    refine ⟨[], by simp [edge_nb_go], by simp, by simp, ?_, by simp⟩
    intro m hm
    simp at hm
  | cons t r ih =>
    intro m0 acc
    have hstep : edge_nb_go (t :: r) m0 acc =
        edge_nb_go r (m0 + 1)
          (append_neighbor (append_neighbor (append_neighbor acc t.1 m0)
            t.2.1 m0) t.2.2 m0) := rfl
    have hlen3 : (append_neighbor (append_neighbor (append_neighbor acc t.1 m0)
        t.2.1 m0) t.2.2 m0).length = acc.length := by
      rw [append_neighbor_length, append_neighbor_length, append_neighbor_length]
    obtain ⟨ihlen, ihspec⟩ := ih (m0 + 1)
      (append_neighbor (append_neighbor (append_neighbor acc t.1 m0)
        t.2.1 m0) t.2.2 m0)
    refine ⟨by rw [hstep, ihlen, hlen3], ?_⟩
    intro e he
    obtain ⟨tail', hget', hbnd', hsort', hcnt', hlen'⟩ :=
      ihspec e (by rw [hlen3]; exact he)
    refine ⟨List.replicate ((triple_list t).count e) m0 ++ tail', ?_, ?_, ?_, ?_, ?_⟩
    · rw [hstep, hget', triple_append_getD _ _ _ _ he, List.append_assoc]
    · intro x hx
      rw [List.mem_append] at hx
      rcases hx with hx | hx
      · rw [List.mem_replicate] at hx
        obtain ⟨-, rfl⟩ := hx
        simp only [List.length_cons]
        omega
      · have := hbnd' x hx
        simp only [List.length_cons]
        omega
    · rw [List.Sorted, List.pairwise_append]
      refine ⟨sorted_le_replicate _ _, hsort', ?_⟩
      intro a ha b hb
      rw [List.mem_replicate] at ha
      have ha' : a = m0 := ha.2
      have hb' := (hbnd' b hb).1
      omega
    · intro m hm
      rw [List.count_append]
      cases m with
      | zero =>
        have hz : tail'.count (m0 + 0) = 0 := by
          rw [List.count_eq_zero]
          intro hmem
          have := (hbnd' _ hmem).1
          omega
        rw [hz, List.count_replicate]
        simp [count_refs]
      | succ m' =>
        have hz : (List.replicate ((triple_list t).count e) m0).count
            (m0 + (m' + 1)) = 0 := by
          rw [List.count_replicate, if_neg]
          intro hc
          have := beq_iff_eq.mp hc
          omega
        rw [hz, Nat.zero_add]
        have : m0 + (m' + 1) = (m0 + 1) + m' := by omega
        rw [this, hcnt' m' (by simpa using hm)]
        simp [count_refs]
    · rw [List.length_append, List.length_replicate, hlen',
        List.length_cons, Finset.sum_range_succ']
      have hc : ∀ m, count_refs (t :: r) (m + 1) e = count_refs r m e := by
        intro m
        simp [count_refs]
      have h0 : count_refs (t :: r) 0 e = (triple_list t).count e := by
        simp [count_refs]
      rw [h0]
      simp only [hc]
      omega

theorem keys_pairwise_distinct {el : Elt} (h : triple_nodup el) :
    vertices_from_edge_index el 0 ≠ vertices_from_edge_index el 1 ∧
    vertices_from_edge_index el 0 ≠ vertices_from_edge_index el 2 ∧
    vertices_from_edge_index el 1 ≠ vertices_from_edge_index el 2 := by
  obtain ⟨h1, h2, h3⟩ := h
  rcases el with ⟨a, b, c⟩
  simp only at h1 h2 h3
  refine ⟨?_, ?_, ?_⟩ <;>
    · intro hEq
      simp only [vertices_from_edge_index, edge_local_pair, sort_values] at hEq
      norm_num at hEq
      split_ifs at hEq <;>
        (rw [Prod.mk.injEq] at hEq; omega)

theorem element_edges_col_nodup (els : List Elt)
    (hval : ∀ el ∈ els, triple_nodup el) (e : ℕ) (he : e < els.length) :
    triple_nodup ((enumerate_edges els).2.getD e (0, 0, 0)) := by
  have hmem : els.getD e (0, 0, 0) ∈ els := by
    rw [List.getD_eq_getElem?_getD, List.getElem?_eq_getElem he]
    exact List.getElem_mem he
  obtain ⟨-, -, -, -, -, hpt, -⟩ := c3_edge_enumeration els hval
  obtain ⟨hp0, hp1, hp2⟩ := hpt e he
  obtain ⟨k01, k02, k12⟩ := keys_pairwise_distinct (hval _ hmem)
  refine ⟨?_, ?_, ?_⟩
  · intro hc
    rw [hc, hp1] at hp0
    exact k01 (Option.some.inj hp0).symm
  · intro hc
    rw [hc, hp2] at hp0
    exact k02 (Option.some.inj hp0).symm
  · intro hc
    rw [hc, hp2] at hp1
    exact k12 (Option.some.inj hp1).symm

theorem count_refs_le_one (els : List Elt)
    (hval : ∀ el ∈ els, triple_nodup el) (m e : ℕ) (hm : m < els.length) :
    count_refs (enumerate_edges els).2 m e ≤ 1 := by
  have hnd := triple_list_nodup (element_edges_col_nodup els hval m hm)
  exact List.nodup_iff_count_le_one.mp hnd e

/-- C10: for every constructed mesh and every edge index `e`,
`edge_neighbors[e]` lists element indices in nondecreasing order (elements
are appended in traversal order `0..M-1`); its head is the smallest-index
incident element; membership is exactly incidence; and each element appears
once per local edge of its `element_edges` column that resolves to `e` — so
exactly once per incident element, the columns having pairwise distinct
entries for elements with three distinct vertices. -/
theorem c10_edge_neighbors_order (els : List Elt) (e : ℕ)
    (hval : ∀ el ∈ els, triple_nodup el)
    (he : e < (enumerate_edges els).1.length) :
    List.Sorted (· ≤ ·)
      ((edge_neighbors_list (enumerate_edges els).1.length
        (enumerate_edges els).2).getD e []) ∧
    (∀ m, m ∈ (edge_neighbors_list (enumerate_edges els).1.length
        (enumerate_edges els).2).getD e [] ↔
      (m < els.length ∧ 0 < count_refs (enumerate_edges els).2 m e)) ∧
    (∀ x, ((edge_neighbors_list (enumerate_edges els).1.length
        (enumerate_edges els).2).getD e []).head? = some x →
      x ∈ (edge_neighbors_list (enumerate_edges els).1.length
        (enumerate_edges els).2).getD e [] ∧
      ∀ m ∈ (edge_neighbors_list (enumerate_edges els).1.length
        (enumerate_edges els).2).getD e [], x ≤ m) ∧
    (∀ m, m < els.length →
      ((edge_neighbors_list (enumerate_edges els).1.length
        (enumerate_edges els).2).getD e []).count m =
        count_refs (enumerate_edges els).2 m e) ∧
    (∀ m, m < els.length → 0 < count_refs (enumerate_edges els).2 m e →
      ((edge_neighbors_list (enumerate_edges els).1.length
        (enumerate_edges els).2).getD e []).count m = 1) := by
  obtain ⟨-, -, -, -, hlen, -, -⟩ := c3_edge_enumeration els hval
  obtain ⟨-, hspec⟩ := edge_nb_go_spec (enumerate_edges els).2 0
    (List.replicate (enumerate_edges els).1.length [])
  obtain ⟨tail, hget, hbnd, hsort, hcnt, -⟩ := hspec e (by simpa using he)
  have hacc : (List.replicate (enumerate_edges els).1.length
      ([] : List ℕ)).getD e [] = [] := by
    rw [List.getD_eq_getElem?_getD, List.getElem?_replicate, if_pos he]
    rfl
  have hL : (edge_neighbors_list (enumerate_edges els).1.length
      (enumerate_edges els).2).getD e [] = tail := by
    rw [edge_neighbors_list, hget, hacc, List.nil_append]
  rw [hL]
  have hcnt0 : ∀ m, m < els.length → tail.count m =
      count_refs (enumerate_edges els).2 m e := by
    intro m hm
    have := hcnt m (by rw [hlen]; exact hm)
    rwa [Nat.zero_add] at this
  refine ⟨hsort, ?_, ?_, hcnt0, ?_⟩
  · intro m
    constructor
    · intro hm
      have hb := hbnd m hm
      rw [Nat.zero_add, hlen] at hb
      refine ⟨hb.2, ?_⟩
      rw [← hcnt0 m hb.2]
      exact List.count_pos_iff.mpr hm
    · intro ⟨hm, hpos⟩
      rw [← hcnt0 m hm] at hpos
      exact List.count_pos_iff.mp hpos
  · intro x hx
    rcases htail : tail with _ | ⟨y, t⟩
    · rw [htail] at hx
      exact absurd hx (by simp)
    · subst htail
      have hxy : y = x := by simpa using hx
      subst hxy
      rw [List.sorted_cons] at hsort
      refine ⟨List.mem_cons_self _ _, ?_⟩
      intro m hm
      rw [List.mem_cons] at hm
      rcases hm with rfl | hm
      · exact Nat.le_refl _
      · exact hsort.1 m hm
  · intro m hm hpos
    have hle := count_refs_le_one els hval m e hm
    have := hcnt0 m hm
    omega

/-- Witness for C10 at the shared edge of a concrete two-element mesh. -/
theorem c10_witness :
    (∀ el ∈ ([(0,1,2),(1,3,2)] : List Elt), triple_nodup el) ∧
    2 < (enumerate_edges [(0,1,2),(1,3,2)]).1.length ∧
    List.Sorted (· ≤ ·)
      ((edge_neighbors_list (enumerate_edges [(0,1,2),(1,3,2)]).1.length
        (enumerate_edges [(0,1,2),(1,3,2)]).2).getD 2 []) :=
  ⟨by decide, by decide,
    (c10_edge_neighbors_order [(0,1,2),(1,3,2)] 2 (by decide) (by decide)).1⟩

theorem mark_getD (flags : List Bool) (edges : List (ℕ × ℕ)) (e v : ℕ)
    (hv : v < flags.length) :
    ((mark_edge_endpoints flags edges e).getD v false = true ↔
      (flags.getD v false = true ∨ (edges.getD e (0, 0)).1 = v ∨
        (edges.getD e (0, 0)).2 = v)) := by
  rw [mark_edge_endpoints]
  by_cases h2 : (edges.getD e (0, 0)).2 = v
  · rw [List.getD_eq_getElem?_getD, h2, List.getElem?_set_self
      (by rw [List.length_set]; exact hv)]
    simp [h2]
  · rw [List.getD_eq_getElem?_getD, List.getElem?_set_ne h2]
    by_cases h1 : (edges.getD e (0, 0)).1 = v
    · rw [h1, List.getElem?_set_self hv]
      simp [h1]
    · rw [List.getElem?_set_ne h1, ← List.getD_eq_getElem?_getD]
      constructor
      · exact Or.inl
      · rintro (h | h | h)
        · exact h
        · exact absurd h h1
        · exact absurd h h2

theorem mark_fold_getD (edges : List (ℕ × ℕ)) :
    ∀ (bs : List ℕ) (flags : List Bool) (v : ℕ), v < flags.length →
      (((bs.foldl (fun fl e => mark_edge_endpoints fl edges e) flags).getD v
          false = true) ↔
        (flags.getD v false = true ∨ ∃ e ∈ bs,
          (edges.getD e (0, 0)).1 = v ∨ (edges.getD e (0, 0)).2 = v)) := by
  intro bs
  induction bs with
  | nil =>
    intro flags v _
    simp
  | cons b bs ih =>
    intro flags v hv
    rw [List.foldl_cons]
    have hlen : (mark_edge_endpoints flags edges b).length = flags.length := by
      rw [mark_edge_endpoints, List.length_set, List.length_set]
    rw [ih _ v (by rw [hlen]; exact hv), mark_getD _ _ _ _ hv]
    constructor
    · rintro ((h | h) | ⟨e, he, hor⟩)
      · exact Or.inl h
      · exact Or.inr ⟨b, List.mem_cons_self b bs, h⟩
      · exact Or.inr ⟨e, List.mem_cons_of_mem b he, hor⟩
    · rintro (h | ⟨e, he, hor⟩)
      · exact Or.inl (Or.inl h)
      · rw [List.mem_cons] at he
        rcases he with rfl | he
        · exact Or.inl (Or.inr hor)
        · exact Or.inr ⟨e, he, hor⟩

/-- C5: for every constructed mesh whose elements each have three distinct
vertices, `edge_on_boundary[e]` holds iff exactly one element's
`element_edges` column references edge `e`, equivalently iff
`edge_neighbors[e]` has length 1; and `vertex_on_boundary[v]` holds iff `v`
is an endpoint of at least one boundary edge. -/
theorem c5_boundary_classification (els : List Elt) (V : ℕ)
    (hval : ∀ el ∈ els, triple_nodup el) :
    (∀ e, e < (enumerate_edges els).1.length →
      (((edge_on_boundary_list (enumerate_edges els).1.length els.length
          (enumerate_edges els).2).getD e false = true) ↔
        ((Finset.range els.length).filter
          (fun m => 0 < count_refs (enumerate_edges els).2 m e)).card = 1) ∧
      (((edge_on_boundary_list (enumerate_edges els).1.length els.length
          (enumerate_edges els).2).getD e false = true) ↔
        ((edge_neighbors_list (enumerate_edges els).1.length
          (enumerate_edges els).2).getD e []).length = 1)) ∧
    (∀ v, v < V →
      (((vertex_on_boundary_list V (enumerate_edges els).1 els.length
          (enumerate_edges els).2).getD v false = true) ↔
        ∃ e, e < (enumerate_edges els).1.length ∧
          (edge_on_boundary_list (enumerate_edges els).1.length els.length
            (enumerate_edges els).2).getD e false = true ∧
          (((enumerate_edges els).1.getD e (0, 0)).1 = v ∨
           ((enumerate_edges els).1.getD e (0, 0)).2 = v))) := by
  obtain ⟨-, -, -, -, hlen, -, -⟩ := c3_edge_enumeration els hval
  have hdiag : ∀ e, edge_diag els.length (enumerate_edges els).2 e =
      ∑ m ∈ Finset.range els.length, count_refs (enumerate_edges els).2 m e := by
    intro e
    rw [edge_diag]
    refine Finset.sum_congr rfl ?_
    intro m hm
    rw [Finset.mem_range] at hm
    rcases Nat.le_one_iff_eq_zero_or_eq_one.mp
      (count_refs_le_one els hval m e hm) with h | h <;> rw [h]
  have hsum_card : ∀ e,
      (∑ m ∈ Finset.range els.length, count_refs (enumerate_edges els).2 m e) =
      ((Finset.range els.length).filter
        (fun m => 0 < count_refs (enumerate_edges els).2 m e)).card := by
    intro e
    have : ∀ m ∈ Finset.range els.length,
        count_refs (enumerate_edges els).2 m e =
          if 0 < count_refs (enumerate_edges els).2 m e then 1 else 0 := by
      intro m hm
      rw [Finset.mem_range] at hm
      rcases Nat.le_one_iff_eq_zero_or_eq_one.mp
        (count_refs_le_one els hval m e hm) with h | h <;> simp [h]
    rw [Finset.sum_congr rfl this, Finset.sum_boole, Nat.cast_id]
  have hebL : ∀ e, e < (enumerate_edges els).1.length →
      (((edge_on_boundary_list (enumerate_edges els).1.length els.length
        (enumerate_edges els).2).getD e false = true) ↔
        edge_diag els.length (enumerate_edges els).2 e = 1) := by
    intro e he
    rw [edge_on_boundary_list, List.getD_eq_getElem?_getD, List.getElem?_map,
      List.getElem?_range he]
    simp [beq_iff_eq]
  refine ⟨?_, ?_⟩
  · intro e he
    have hL : ((edge_neighbors_list (enumerate_edges els).1.length
        (enumerate_edges els).2).getD e []).length =
        ∑ m ∈ Finset.range els.length, count_refs (enumerate_edges els).2 m e := by
      obtain ⟨-, hspec⟩ := edge_nb_go_spec (enumerate_edges els).2 0
        (List.replicate (enumerate_edges els).1.length [])
      obtain ⟨tail, hget, -, -, -, hlen'⟩ := hspec e (by simpa using he)
      have hacc : (List.replicate (enumerate_edges els).1.length
          ([] : List ℕ)).getD e [] = [] := by
        rw [List.getD_eq_getElem?_getD, List.getElem?_replicate, if_pos he]
        rfl
      rw [edge_neighbors_list, hget, hacc, List.nil_append, hlen', hlen]
    constructor
    · rw [hebL e he, hdiag e, hsum_card e]
    · rw [hebL e he, hdiag e, hL]
  · intro v hv
    rw [vertex_on_boundary_list,
      mark_fold_getD (enumerate_edges els).1 _ _ v (by simpa using hv)]
    have hstart : (List.replicate V false).getD v false = false := by
      rw [List.getD_eq_getElem?_getD, List.getElem?_replicate, if_pos hv]
      rfl
    rw [hstart]
    simp only [Bool.false_eq_true, false_or, List.mem_filter, List.mem_range]
    constructor
    · rintro ⟨e, ⟨heE, hd⟩, hor⟩
      exact ⟨e, heE, (hebL e heE).mpr (by simpa using hd), hor⟩
    · rintro ⟨e, heE, hb, hor⟩
      refine ⟨e, ⟨heE, ?_⟩, hor⟩
      have := (hebL e heE).mp hb
      simpa using this

/-- Witness for C5 at a concrete two-element mesh: edge 0 of element 0 is a
boundary edge. -/
theorem c5_witness :
    (∀ el ∈ ([(0,1,2),(1,3,2)] : List Elt), triple_nodup el) ∧
    (((edge_on_boundary_list (enumerate_edges [(0,1,2),(1,3,2)]).1.length 2
        (enumerate_edges [(0,1,2),(1,3,2)]).2).getD 0 false = true) ↔
      ((Finset.range 2).filter
        (fun m => 0 < count_refs (enumerate_edges [(0,1,2),(1,3,2)]).2 m 0)).card = 1) :=
  ⟨by decide,
    ((c5_boundary_classification [(0,1,2),(1,3,2)] 4 (by decide)).1 0
      (by decide)).1⟩

/-! ### Lemmas about the adjacency pair lists -/

theorem vte_count_eq_ite (els : List Elt) (m : ℕ)
    (hnd : triple_nodup (els.getD m (0, 0, 0))) (v : ℕ) :
    vte_count els v m =
      if v ∈ (triple_list (els.getD m (0, 0, 0))).toFinset then 1 else 0 := by
  rw [vte_count]
  by_cases h : v ∈ triple_list (els.getD m (0, 0, 0))
  · rw [if_pos (List.mem_toFinset.mpr h)]
    exact List.count_eq_one_of_mem (triple_list_nodup hnd) h
  · rw [if_neg (fun hc => h (List.mem_toFinset.mp hc)), List.count_eq_zero.mpr h]

theorem e2e_count_eq_inter_card (V : ℕ) (els : List Elt) (i j : ℕ)
    (hi : triple_nodup (els.getD i (0, 0, 0)))
    (hj : triple_nodup (els.getD j (0, 0, 0)))
    (hbi : ∀ v ∈ triple_list (els.getD i (0, 0, 0)), v < V) :
    e2e_count V els i j =
      ((triple_list (els.getD i (0, 0, 0))).toFinset ∩
       (triple_list (els.getD j (0, 0, 0))).toFinset).card := by
  rw [e2e_count]
  have hcong : ∀ v ∈ Finset.range V,
      vte_count els v i * vte_count els v j =
        if v ∈ (triple_list (els.getD i (0, 0, 0))).toFinset ∩
            (triple_list (els.getD j (0, 0, 0))).toFinset then 1 else 0 := by
    intro v _
    rw [vte_count_eq_ite els i hi v, vte_count_eq_ite els j hj v]
    by_cases h1 : v ∈ (triple_list (els.getD i (0, 0, 0))).toFinset
    · by_cases h2 : v ∈ (triple_list (els.getD j (0, 0, 0))).toFinset
      · rw [if_pos h1, if_pos h2, if_pos (Finset.mem_inter.mpr ⟨h1, h2⟩)]
      · rw [if_pos h1, if_neg h2,
          if_neg (fun hc => h2 (Finset.mem_inter.mp hc).2)]
    · by_cases h2 : v ∈ (triple_list (els.getD j (0, 0, 0))).toFinset
      · rw [if_neg h1, if_pos h2,
          if_neg (fun hc => h1 (Finset.mem_inter.mp hc).1)]
      · rw [if_neg h1, if_neg h2,
          if_neg (fun hc => h1 (Finset.mem_inter.mp hc).1)]
  rw [Finset.sum_congr rfl hcong, Finset.sum_ite_mem, Finset.sum_const,
    smul_eq_mul, Nat.mul_one]
  congr 1
  rw [Finset.inter_eq_right]
  intro v hv
  rw [Finset.mem_inter] at hv
  rw [Finset.mem_range]
  exact hbi v (List.mem_toFinset.mp hv.1)

theorem e2e_count_symm (V : ℕ) (els : List Elt) (i j : ℕ) :
    e2e_count V els i j = e2e_count V els j i := by
  rw [e2e_count, e2e_count]
  exact Finset.sum_congr rfl (fun v _ => Nat.mul_comm _ _)

theorem all_pairs_mem (M : ℕ) (p : ℕ × ℕ) :
    p ∈ all_pairs M ↔ p.1 < M ∧ p.2 < M := by
  rw [all_pairs, List.mem_flatMap]
  constructor
  · rintro ⟨i, hi, hp⟩
    rw [List.mem_map] at hp
    obtain ⟨j, hj, rfl⟩ := hp
    rw [List.mem_range] at hi hj
    exact ⟨hi, hj⟩
  · rintro ⟨h1, h2⟩
    exact ⟨p.1, List.mem_range.mpr h1,
      List.mem_map.mpr ⟨p.2, List.mem_range.mpr h2, rfl⟩⟩

theorem all_pairs_nodup (M : ℕ) : (all_pairs M).Nodup := by
  rw [all_pairs, List.nodup_flatMap]
  refine ⟨?_, ?_⟩
  · intro i _
    exact (List.nodup_range M).map (fun a b h => by
      simpa using congrArg Prod.snd h)
  · have : ∀ i j : ℕ, i ≠ j →
        List.Disjoint ((List.range M).map (fun k => (i, k)))
          ((List.range M).map (fun k => (j, k))) := by
      intro i j hij x hxi hxj
      rw [List.mem_map] at hxi hxj
      obtain ⟨a, -, rfl⟩ := hxi
      obtain ⟨b, -, hb⟩ := hxj
      exact hij (congrArg Prod.fst hb).symm
    exact (List.nodup_range M).imp (fun hab => this _ _ hab)

theorem count_eq_one_of_nodup_mem {α : Type} [BEq α] [LawfulBEq α] :
    ∀ {l : List α} {a : α}, l.Nodup → a ∈ l → l.count a = 1 := by
  intro l
  induction l with
  | nil =>
    intro a _ ha
    simp at ha
  | cons x t ih =>
    intro a hnd ha
    rw [List.count_cons]
    rw [List.nodup_cons] at hnd
    rw [List.mem_cons] at ha
    rcases ha with rfl | ha
    · rw [if_pos (by simp), List.count_eq_zero.mpr hnd.1]
    · have hxa : ¬((x == a) = true) := by
        intro hc
        exact hnd.1 (beq_iff_eq.mp hc ▸ ha)
      rw [if_neg hxa, ih hnd.2 ha]

theorem count_all_pairs (M : ℕ) (p : ℕ × ℕ) :
    (all_pairs M).count p = if p.1 < M ∧ p.2 < M then 1 else 0 := by
  by_cases h : p.1 < M ∧ p.2 < M
  · rw [if_pos h]
    exact count_eq_one_of_nodup_mem (all_pairs_nodup M)
      ((all_pairs_mem M p).mpr h)
  · rw [if_neg h, List.count_eq_zero]
    intro hc
    exact h ((all_pairs_mem M p).mp hc)

theorem count_element_filter (V : ℕ) (els : List Elt) (c : ℕ) (p : ℕ × ℕ) :
    (element_filter V els c).count p =
      if p.1 < els.length ∧ p.2 < els.length ∧ e2e_count V els p.1 p.2 = c
      then 1 else 0 := by
  rw [element_filter]
  by_cases hc : e2e_count V els p.1 p.2 = c
  · rw [List.count_filter (by simpa using hc), count_all_pairs]
    by_cases hb : p.1 < els.length ∧ p.2 < els.length
    · rw [if_pos hb, if_pos ⟨hb.1, hb.2, hc⟩]
    · rw [if_neg hb, if_neg (by tauto)]
  · rw [if_neg (by tauto), List.count_eq_zero]
    intro hmem
    rw [List.mem_filter] at hmem
    exact hc (by simpa using hmem.2)

theorem resolve_all_ok_forall2 {α β : Type} (f : α → Except GridError β) :
    ∀ (l : List α) (ys : List β), resolve_all f l = .ok ys →
      List.Forall₂ (fun x y => f x = .ok y) l ys := by
  intro l
  induction l with
  | nil =>
    intro ys h
    have hys : ([] : List β) = ys := by simpa [resolve_all] using h
    subst hys
    exact List.Forall₂.nil
  | cons x l ih =>
    intro ys h
    rcases hfx : f x with e | y
    · simp only [resolve_all, hfx] at h
      exact absurd h (by simp)
    · simp only [resolve_all, hfx] at h
      rcases hrec : resolve_all f l with e | ys'
      · rw [hrec] at h
        exact absurd h (by simp)
      · rw [hrec] at h
        have hys : y :: ys' = ys := by simpa using h
        subst hys
        exact List.Forall₂.cons hfx (ih ys' hrec)

theorem vertex_adjacency_column_header {els : List Elt} {p : ℕ × ℕ}
    {y : ℕ × ℕ × ℕ × ℕ} (h : vertex_adjacency_column els p = .ok y) :
    (y.1, y.2.1) = p := by
  simp only [vertex_adjacency_column] at h
  rcases hf : find_first_common_array_index_pair_from_position
      (triple_list (els.getD p.1 (0, 0, 0)))
      (triple_list (els.getD p.2 (0, 0, 0))) 0 with e | pr
  · rw [hf] at h
    exact absurd h (by simp)
  · rw [hf] at h
    have hy : (p.1, p.2, pr.1, pr.2) = y := by simpa using h
    rw [← hy]

theorem edge_adjacency_column_header {els : List Elt} {p : ℕ × ℕ}
    {y : ℕ × ℕ × ℕ × ℕ × ℕ × ℕ} (h : edge_adjacency_column els p = .ok y) :
    (y.1, y.2.1) = p := by
  simp only [edge_adjacency_column] at h
  rcases hf : find_two_common_array_index_pairs
      (triple_list (els.getD p.1 (0, 0, 0)))
      (triple_list (els.getD p.2 (0, 0, 0))) with e | pr
  · rw [hf] at h
    exact absurd h (by simp)
  · rw [hf] at h
    have hy : (p.1, p.2, pr.1.1, pr.2.1, pr.1.2, pr.2.2) = y := by simpa using h
    rw [← hy]

theorem forall2_filter_header_count {α β : Type} [BEq α] [LawfulBEq α]
    (h : β → α) :
    ∀ (l : List α) (ys : List β),
      List.Forall₂ (fun x y => h y = x) l ys →
      ∀ p, (ys.filter (fun y => h y == p)).length = l.count p := by
  intro l ys hf
  induction hf with
  | nil => intro p; simp
  | @cons x y l' ys' hxy hrest ih =>
    intro p
    rw [List.filter_cons, List.count_cons]
    by_cases hp : (h y == p) = true
    · rw [if_pos hp, List.length_cons, ih p, if_pos (by rw [← hxy]; exact hp)]
    · rw [if_neg hp, ih p, if_neg (by rw [← hxy]; exact hp), Nat.add_zero]

/-- C6 counterexample: in the concrete mesh with elements `(0,1,2)` and
`(1,3,2)`, the single unordered pair {element 0, element 1} shares exactly
the two vertices {1, 2}, yet the builder stores TWO edge-adjacency columns
for it — one headed `(0, 1)` and one headed `(1, 0)` — because the
symmetric element-to-element sparse matrix lists both ordered pairs.  This
refutes "stored once per unordered pair". -/
theorem c6_counterexample :
    ((triple_list (([(0,1,2),(1,3,2)] : List Elt).getD 0 (0, 0, 0))).toFinset ∩
      (triple_list (([(0,1,2),(1,3,2)] : List Elt).getD 1 (0, 0, 0))).toFinset).card
      = 2 ∧
    find_edge_adjacency [(0,1,2),(1,3,2)]
        (element_filter 4 [(0,1,2),(1,3,2)] 2) =
      .ok [(0, 1, 1, 2, 0, 2), (1, 0, 0, 2, 1, 2)] ∧
    ¬((([(0, 1, 1, 2, 0, 2), (1, 0, 0, 2, 1, 2)] :
        List (ℕ × ℕ × ℕ × ℕ × ℕ × ℕ)).filter
        (fun c => sort_values (c.1, c.2.1) == (0, 1))).length = 1) :=
  ⟨by decide, by decide, by decide⟩

/-- C6 amended: vertex- and edge-adjacency are symmetric relations, but a
pair of distinct elements is stored once per ORDERED pair: an unordered
pair sharing exactly one vertex contributes exactly two columns to
`vertex_adjacency` (one headed `(i, j)` and one headed `(j, i)`), and an
unordered pair sharing exactly two vertices likewise contributes exactly
two columns to `edge_adjacency`; pairs with any other shared count
contribute no column. -/
theorem c6_amended_adjacency_stored_per_ordered_pair
    (V : ℕ) (els : List Elt) (i j : ℕ)
    (va : List (ℕ × ℕ × ℕ × ℕ)) (ea : List (ℕ × ℕ × ℕ × ℕ × ℕ × ℕ))
    (hval : ∀ el ∈ els, triple_nodup el)
    (hbnd : ∀ el ∈ els, triple_in_bounds V el)
    (hi : i < els.length) (hj : j < els.length) (_hij : i ≠ j)
    (hva : find_vertex_adjacency els (element_filter V els 1) = .ok va)
    (hea : find_edge_adjacency els (element_filter V els 2) = .ok ea) :
    e2e_count V els i j = e2e_count V els j i ∧
    (va.filter (fun c => (c.1, c.2.1) == (i, j))).length =
      (if ((triple_list (els.getD i (0, 0, 0))).toFinset ∩
          (triple_list (els.getD j (0, 0, 0))).toFinset).card = 1
       then 1 else 0) ∧
    (va.filter (fun c => (c.1, c.2.1) == (j, i))).length =
      (if ((triple_list (els.getD i (0, 0, 0))).toFinset ∩
          (triple_list (els.getD j (0, 0, 0))).toFinset).card = 1
       then 1 else 0) ∧
    (ea.filter (fun c => (c.1, c.2.1) == (i, j))).length =
      (if ((triple_list (els.getD i (0, 0, 0))).toFinset ∩
          (triple_list (els.getD j (0, 0, 0))).toFinset).card = 2
       then 1 else 0) ∧
    (ea.filter (fun c => (c.1, c.2.1) == (j, i))).length =
      (if ((triple_list (els.getD i (0, 0, 0))).toFinset ∩
          (triple_list (els.getD j (0, 0, 0))).toFinset).card = 2
       then 1 else 0) := by
  have hmi : els.getD i (0, 0, 0) ∈ els := by
    rw [List.getD_eq_getElem?_getD, List.getElem?_eq_getElem hi]
    exact List.getElem_mem hi
  have hmj : els.getD j (0, 0, 0) ∈ els := by
    rw [List.getD_eq_getElem?_getD, List.getElem?_eq_getElem hj]
    exact List.getElem_mem hj
  have hndi := hval _ hmi
  have hndj := hval _ hmj
  have hbi : ∀ v ∈ triple_list (els.getD i (0, 0, 0)), v < V := by
    intro v hv
    have hB := hbnd _ hmi
    simp only [triple_list, List.mem_cons, List.mem_singleton,
      List.not_mem_nil, or_false] at hv
    rcases hv with rfl | rfl | rfl
    · exact hB.1
    · exact hB.2.1
    · exact hB.2.2
  have hbj : ∀ v ∈ triple_list (els.getD j (0, 0, 0)), v < V := by
    intro v hv
    have hB := hbnd _ hmj
    simp only [triple_list, List.mem_cons, List.mem_singleton,
      List.not_mem_nil, or_false] at hv
    rcases hv with rfl | rfl | rfl
    · exact hB.1
    · exact hB.2.1
    · exact hB.2.2
  have hcij := e2e_count_eq_inter_card V els i j hndi hndj hbi
  have hcji := e2e_count_eq_inter_card V els j i hndj hndi hbj
  have hcomm : (triple_list (els.getD j (0, 0, 0))).toFinset ∩
      (triple_list (els.getD i (0, 0, 0))).toFinset =
      (triple_list (els.getD i (0, 0, 0))).toFinset ∩
      (triple_list (els.getD j (0, 0, 0))).toFinset := Finset.inter_comm _ _
  have hva2 : List.Forall₂ (fun x (y : ℕ × ℕ × ℕ × ℕ) => (y.1, y.2.1) = x)
      (element_filter V els 1) va :=
    List.Forall₂.imp (fun a b hab => vertex_adjacency_column_header hab)
      (resolve_all_ok_forall2 (vertex_adjacency_column els) _ _ hva)
  have hea2 : List.Forall₂
      (fun x (y : ℕ × ℕ × ℕ × ℕ × ℕ × ℕ) => (y.1, y.2.1) = x)
      (element_filter V els 2) ea :=
    List.Forall₂.imp (fun a b hab => edge_adjacency_column_header hab)
      (resolve_all_ok_forall2 (edge_adjacency_column els) _ _ hea)
  have hvcount := forall2_filter_header_count
    (fun c : ℕ × ℕ × ℕ × ℕ => (c.1, c.2.1)) _ _ hva2
  have hecount := forall2_filter_header_count
    (fun c : ℕ × ℕ × ℕ × ℕ × ℕ × ℕ => (c.1, c.2.1)) _ _ hea2
  refine ⟨e2e_count_symm V els i j, ?_, ?_, ?_, ?_⟩
  · rw [hvcount (i, j), count_element_filter]
    by_cases hc : ((triple_list (els.getD i (0, 0, 0))).toFinset ∩
        (triple_list (els.getD j (0, 0, 0))).toFinset).card = 1
    · rw [if_pos hc, if_pos ⟨hi, hj, by rw [hcij]; exact hc⟩]
    · rw [if_neg hc, if_neg (fun hcon => hc (by rw [← hcij]; exact hcon.2.2))]
  · rw [hvcount (j, i), count_element_filter]
    by_cases hc : ((triple_list (els.getD i (0, 0, 0))).toFinset ∩
        (triple_list (els.getD j (0, 0, 0))).toFinset).card = 1
    · rw [if_pos hc, if_pos ⟨hj, hi, by rw [hcji, hcomm]; exact hc⟩]
    · rw [if_neg hc, if_neg (fun hcon => hc (by
        rw [← hcomm, ← hcji]; exact hcon.2.2))]
  · rw [hecount (i, j), count_element_filter]
    by_cases hc : ((triple_list (els.getD i (0, 0, 0))).toFinset ∩
        (triple_list (els.getD j (0, 0, 0))).toFinset).card = 2
    · rw [if_pos hc, if_pos ⟨hi, hj, by rw [hcij]; exact hc⟩]
    · rw [if_neg hc, if_neg (fun hcon => hc (by rw [← hcij]; exact hcon.2.2))]
  · rw [hecount (j, i), count_element_filter]
    by_cases hc : ((triple_list (els.getD i (0, 0, 0))).toFinset ∩
        (triple_list (els.getD j (0, 0, 0))).toFinset).card = 2
    · rw [if_pos hc, if_pos ⟨hj, hi, by rw [hcji, hcomm]; exact hc⟩]
    · rw [if_neg hc, if_neg (fun hcon => hc (by
        rw [← hcomm, ← hcji]; exact hcon.2.2))]

/-- Witness for the amended C6 at the concrete two-element mesh sharing an
edge. -/
theorem c6_witness :
    (0 : ℕ) ≠ 1 ∧
    (([(0, 1, 1, 2, 0, 2), (1, 0, 0, 2, 1, 2)] :
        List (ℕ × ℕ × ℕ × ℕ × ℕ × ℕ)).filter
      (fun c => (c.1, c.2.1) == ((0 : ℕ), (1 : ℕ)))).length =
    (if ((triple_list (([(0,1,2),(1,3,2)] : List Elt).getD 0 (0, 0, 0))).toFinset ∩
        (triple_list (([(0,1,2),(1,3,2)] : List Elt).getD 1 (0, 0, 0))).toFinset).card
        = 2 then 1 else 0) :=
  ⟨by decide,
    (c6_amended_adjacency_stored_per_ordered_pair 4 [(0,1,2),(1,3,2)] 0 1
      [] [(0, 1, 1, 2, 0, 2), (1, 0, 0, 2, 1, 2)]
      (by decide) (by decide) (by decide) (by decide) (by decide)
      (by decide) (by decide)).2.2.2.1⟩

/-! ### Lemmas about the geometry computer -/

theorem ev_at_corner (vs : List Vec3) (els : List Elt) (e : ℕ)
    (he : e < els.length) :
    ev_at vs els (3 * e) = vs.getD (els.getD e (0, 0, 0)).1 (0, 0, 0) ∧
    ev_at vs els (3 * e + 1) = vs.getD (els.getD e (0, 0, 0)).2.1 (0, 0, 0) ∧
    ev_at vs els (3 * e + 2) = vs.getD (els.getD e (0, 0, 0)).2.2 (0, 0, 0) := by
  have hels : els.getD e (0, 0, 0) = els[e] := by
    rw [List.getD_eq_getElem?_getD, List.getElem?_eq_getElem he]
    rfl
  have hflat := getElem?_flatMap_const_length 3
    (fun el : Elt => [vs.getD el.1 (0, 0, 0), vs.getD el.2.1 (0, 0, 0),
      vs.getD el.2.2 (0, 0, 0)]) (fun _ => rfl) els
  refine ⟨?_, ?_, ?_⟩
  · have h := hflat e 0 (by omega)
    rw [Nat.add_zero] at h
    rw [ev_at, List.getD_eq_getElem?_getD]
    rw [show element_vertices vs els = els.flatMap
      (fun el : Elt => [vs.getD el.1 (0, 0, 0), vs.getD el.2.1 (0, 0, 0),
        vs.getD el.2.2 (0, 0, 0)]) from rfl]
    rw [h, List.getElem?_eq_getElem he, hels]
    rfl
  · have h := hflat e 1 (by omega)
    rw [ev_at, List.getD_eq_getElem?_getD]
    rw [show element_vertices vs els = els.flatMap
      (fun el : Elt => [vs.getD el.1 (0, 0, 0), vs.getD el.2.1 (0, 0, 0),
        vs.getD el.2.2 (0, 0, 0)]) from rfl]
    rw [h, List.getElem?_eq_getElem he, hels]
    rfl
  · have h := hflat e 2 (by omega)
    rw [ev_at, List.getD_eq_getElem?_getD]
    rw [show element_vertices vs els = els.flatMap
      (fun el : Elt => [vs.getD el.1 (0, 0, 0), vs.getD el.2.1 (0, 0, 0),
        vs.getD el.2.2 (0, 0, 0)]) from rfl]
    rw [h, List.getElem?_eq_getElem he, hels]
    rfl

theorem jacobian_row_corners (vs : List Vec3) (els : List Elt) (e : ℕ)
    (he : e < els.length) :
    jacobian_row vs els (2 * e) =
      vsub (vs.getD (els.getD e (0, 0, 0)).2.1 (0, 0, 0))
        (vs.getD (els.getD e (0, 0, 0)).1 (0, 0, 0)) ∧
    jacobian_row vs els (2 * e + 1) =
      vsub (vs.getD (els.getD e (0, 0, 0)).2.2 (0, 0, 0))
        (vs.getD (els.getD e (0, 0, 0)).1 (0, 0, 0)) := by
  obtain ⟨h0, h1, h2⟩ := ev_at_corner vs els e he
  constructor
  · have hidx : jac_index (2 * e) = 3 * e + 1 := by
      simp only [jac_index]
      omega
    have hidx3 : 3 * (jac_index (2 * e) / 3) = 3 * e := by
      rw [hidx]
      omega
    rw [jacobian_row, hidx3, hidx, h1, h0]
  · have hidx : jac_index (2 * e + 1) = 3 * e + 2 := by
      simp only [jac_index]
      omega
    have hidx3 : 3 * (jac_index (2 * e + 1) / 3) = 3 * e := by
      rw [hidx]
      omega
    rw [jacobian_row, hidx3, hidx, h2, h0]

/-- C7: for every element `e` with corners `c0, c1, c2`, the stored
geometry equals the closed forms: Jacobian columns `j0 = c1 - c0`,
`j1 = c2 - c0`; unit normal `(j0 × j1)/|j0 × j1|`; volume
`0.5 * |j0 × j1|`; centroid `(c0 + c1 + c2)/3`; diameter
`|j0| |j1| |j0 - j1| / |j0 × j1|`; integration element `sqrt(det(JᵀJ))`. -/
theorem c7_geometry_closed_forms (vs : List Vec3) (els : List Elt) (e : ℕ)
    (c0 c1 c2 : Vec3)
    (he : e < els.length)
    (hc0 : c0 = vs.getD (els.getD e (0, 0, 0)).1 (0, 0, 0))
    (hc1 : c1 = vs.getD (els.getD e (0, 0, 0)).2.1 (0, 0, 0))
    (hc2 : c2 = vs.getD (els.getD e (0, 0, 0)).2.2 (0, 0, 0)) :
    jacobian_row vs els (2 * e) = vsub c1 c0 ∧
    jacobian_row vs els (2 * e + 1) = vsub c2 c0 ∧
    normal_direction vs els e = vcross (vsub c1 c0) (vsub c2 c0) ∧
    normal_r vs els e =
      ((((vcross (vsub c1 c0) (vsub c2 c0)).1 : ℚ) : ℝ) /
          vnorm (vcross (vsub c1 c0) (vsub c2 c0)),
       (((vcross (vsub c1 c0) (vsub c2 c0)).2.1 : ℚ) : ℝ) /
          vnorm (vcross (vsub c1 c0) (vsub c2 c0)),
       (((vcross (vsub c1 c0) (vsub c2 c0)).2.2 : ℚ) : ℝ) /
          vnorm (vcross (vsub c1 c0) (vsub c2 c0))) ∧
    volume_r vs els e = (1 / 2 : ℝ) * vnorm (vcross (vsub c1 c0) (vsub c2 c0)) ∧
    centroid_q vs els e = vsmul (1 / 3) (vadd (vadd c0 c1) c2) ∧
    diameter_r vs els e =
      vnorm (vsub c1 c0) * vnorm (vsub c2 c0) *
        vnorm (vsub (vsub c1 c0) (vsub c2 c0)) /
        vnorm (vcross (vsub c1 c0) (vsub c2 c0)) ∧
    integration_element_r vs els e =
      Real.sqrt (((vdot (vsub c1 c0) (vsub c1 c0) *
        vdot (vsub c2 c0) (vsub c2 c0) -
        vdot (vsub c1 c0) (vsub c2 c0) *
        vdot (vsub c2 c0) (vsub c1 c0) : ℚ)) : ℝ) := by
  subst hc0 hc1 hc2
  obtain ⟨hj0, hj1⟩ := jacobian_row_corners vs els e he
  obtain ⟨h0, h1, h2⟩ := ev_at_corner vs els e he
  refine ⟨hj0, hj1, ?_, ?_, ?_, ?_, ?_, ?_⟩
  · rw [normal_direction, hj0, hj1]
  · simp only [normal_r, normal_direction, hj0, hj1]
  · rw [volume_r, normal_direction, hj0, hj1]
  · rw [centroid_q, h0, h1, h2]
  · rw [diameter_r, normal_direction, hj0, hj1]
  · simp only [integration_element_r, gram_det, gram, det2, hj0, hj1]

/-- Witness for C7 at the unit right triangle. -/
theorem c7_witness :
    (0 : ℕ) < ([((0:ℕ),(1:ℕ),(2:ℕ))] : List Elt).length ∧
    jacobian_row [((0:ℚ),(0:ℚ),(0:ℚ)), (1,0,0), (0,1,0)] [(0,1,2)] (2 * 0) =
      vsub (1, 0, 0) (0, 0, 0) :=
  ⟨by decide,
    (c7_geometry_closed_forms [((0:ℚ),(0:ℚ),(0:ℚ)), (1,0,0), (0,1,0)]
      [(0,1,2)] 0 (0, 0, 0) (1, 0, 0) (0, 1, 0)
      (by decide) (by decide) (by decide) (by decide)).1⟩

/-- C8: for every element whose 2×2 Gram matrix `JᵀJ` is invertible
(nonzero determinant), the stored `jacobian_inverse_transposed` satisfies
`jacobian_inverse_transposedᵀ · jacobian = I₂` exactly, entry by entry, in
exact arithmetic. -/
theorem c8_jit_transpose_jacobian_identity (vs : List Vec3) (els : List Elt)
    (e : ℕ) (hdet : gram_det vs els e ≠ 0) :
    vdot (jit_col vs els e 0) (jacobian_row vs els (2 * e)) = 1 ∧
    vdot (jit_col vs els e 0) (jacobian_row vs els (2 * e + 1)) = 0 ∧
    vdot (jit_col vs els e 1) (jacobian_row vs els (2 * e)) = 0 ∧
    vdot (jit_col vs els e 1) (jacobian_row vs els (2 * e + 1)) = 1 := by
  rcases hj0 : jacobian_row vs els (2 * e) with ⟨a1, a2, a3⟩
  rcases hj1 : jacobian_row vs els (2 * e + 1) with ⟨b1, b2, b3⟩
  simp only [gram_det, gram, det2, hj0, hj1, vdot] at hdet
  refine ⟨?_, ?_, ?_, ?_⟩ <;>
    · simp only [jit_col, gram_inv, gram, det2, hj0, hj1, vdot, vadd, vsmul]
      norm_num
      field_simp
      ring

/-- Witness for C8 at the unit right triangle (Gram determinant 1). -/
theorem c8_witness :
    gram_det [((0:ℚ),(0:ℚ),(0:ℚ)), (1,0,0), (0,1,0)] [(0,1,2)] 0 ≠ 0 ∧
    vdot (jit_col [((0:ℚ),(0:ℚ),(0:ℚ)), (1,0,0), (0,1,0)] [(0,1,2)] 0 0)
      (jacobian_row [((0:ℚ),(0:ℚ),(0:ℚ)), (1,0,0), (0,1,0)] [(0,1,2)] (2 * 0))
      = 1 :=
  ⟨by simp [gram_det, gram, det2, jacobian_row, jac_index, ev_at,
      element_vertices, vsub, vdot],
    (c8_jit_transpose_jacobian_identity
      [((0:ℚ),(0:ℚ),(0:ℚ)), (1,0,0), (0,1,0)] [(0,1,2)] 0
      (by simp [gram_det, gram, det2, jacobian_row, jac_index, ev_at,
        element_vertices, vsub, vdot])).1⟩

/-! ### Construction failure on invalid input -/

theorem gram_det_zero_of_repeated_vertex (vs : List Vec3) (els : List Elt)
    (e : ℕ) (he : e < els.length)
    (h : ¬triple_nodup (els.getD e (0, 0, 0))) : gram_det vs els e = 0 := by
  obtain ⟨hj0, hj1⟩ := jacobian_row_corners vs els e he
  rw [triple_nodup] at h
  push_neg at h
  rcases hA : vs.getD (els.getD e (0, 0, 0)).1 (0, 0, 0) with ⟨x0, y0, z0⟩
  rcases hB : vs.getD (els.getD e (0, 0, 0)).2.1 (0, 0, 0) with ⟨x1, y1, z1⟩
  rcases hC : vs.getD (els.getD e (0, 0, 0)).2.2 (0, 0, 0) with ⟨x2, y2, z2⟩
  rw [hA, hB] at hj0
  rw [hA, hC] at hj1
  by_cases h01 : (els.getD e (0, 0, 0)).1 = (els.getD e (0, 0, 0)).2.1
  · have hcc : ((x0, y0, z0) : Vec3) = (x1, y1, z1) := by
      rw [← hA, ← hB, h01]
    simp only [Prod.mk.injEq] at hcc
    obtain ⟨e1, e2, e3⟩ := hcc
    simp only [gram_det, gram, det2, hj0, hj1, vsub, vdot]
    rw [← e1, ← e2, ← e3]
    ring
  · by_cases h02 : (els.getD e (0, 0, 0)).1 = (els.getD e (0, 0, 0)).2.2
    · have hcc : ((x0, y0, z0) : Vec3) = (x2, y2, z2) := by
        rw [← hA, ← hC, h02]
      simp only [Prod.mk.injEq] at hcc
      obtain ⟨e1, e2, e3⟩ := hcc
      simp only [gram_det, gram, det2, hj0, hj1, vsub, vdot]
      rw [← e1, ← e2, ← e3]
      ring
    · have h12 : (els.getD e (0, 0, 0)).2.1 = (els.getD e (0, 0, 0)).2.2 :=
        h h01 h02
      have hcc : ((x1, y1, z1) : Vec3) = (x2, y2, z2) := by
        rw [← hB, ← hC, h12]
      simp only [Prod.mk.injEq] at hcc
      obtain ⟨e1, e2, e3⟩ := hcc
      simp only [gram_det, gram, det2, hj0, hj1, vsub, vdot]
      rw [← e1, ← e2, ← e3]
      ring

/-- C2: mesh construction fails — no `Grid` value is produced — whenever
some element references a vertex index `≥ V` (scipy's `csr_matrix`
constructor raises) or some element is degenerate: a repeated vertex index
or, more generally, a singular 2×2 Gram matrix / zero area
(`numpy.linalg.inv` raises the error the spec calls
`DegenerateElementError`); no NaN/Inf geometry is ever stored because the
constructor aborts. -/
theorem c2_construction_fails_on_invalid_input (vs : List Vec3)
    (els : List Elt) (doms : List ℕ)
    (h : (∃ el ∈ els, ¬triple_in_bounds vs.length el) ∨
         (∃ e ∈ List.range els.length,
           ¬triple_nodup (els.getD e (0, 0, 0)) ∨ gram_det vs els e = 0)) :
    ∃ err, buildGrid vs els doms = .error err := by
  by_cases hbnd : ∀ el ∈ els, triple_in_bounds vs.length el
  · rcases h with ⟨el, hel, hnb⟩ | ⟨e, he, hdeg⟩
    · exact absurd (hbnd el hel) hnb
    · rw [List.mem_range] at he
      have hdet : gram_det vs els e = 0 := by
        rcases hdeg with hrep | hz
        · exact gram_det_zero_of_repeated_vertex vs els e he hrep
        · exact hz
      rcases hva : find_vertex_adjacency els (element_filter vs.length els 1)
        with err | va
      · exact ⟨err, by simp only [buildGrid, if_pos hbnd, hva]⟩
      · rcases hea : find_edge_adjacency els (element_filter vs.length els 2)
          with err | ea
        · exact ⟨err, by simp only [buildGrid, if_pos hbnd, hva, hea]⟩
        · refine ⟨.singularMatrix, ?_⟩
          have hnall : ¬∀ x ∈ List.range els.length, gram_det vs els x ≠ 0 :=
            fun hall => hall e (List.mem_range.mpr he) hdet
          simp only [buildGrid, if_pos hbnd, hva, hea, if_neg hnall]
  · exact ⟨.indexOutOfBounds, by simp only [buildGrid, if_neg hbnd]⟩

/-- Witness for C2: a single element with the repeated vertex 1. -/
theorem c2_witness :
    ((∃ el ∈ ([(0,1,1)] : List Elt),
        ¬triple_in_bounds ([((0:ℚ),(0:ℚ),(0:ℚ)), (1,0,0), (0,1,0)] : List Vec3).length el) ∨
      (∃ e ∈ List.range ([(0,1,1)] : List Elt).length,
        ¬triple_nodup (([(0,1,1)] : List Elt).getD e (0, 0, 0)) ∨
          gram_det [((0:ℚ),(0:ℚ),(0:ℚ)), (1,0,0), (0,1,0)] [(0,1,1)] e = 0)) ∧
    ∃ err, buildGrid [((0:ℚ),(0:ℚ),(0:ℚ)), (1,0,0), (0,1,0)] [(0,1,1)] [0] =
      .error err :=
  ⟨Or.inr ⟨0, by decide, Or.inl (by decide)⟩,
    c2_construction_fails_on_invalid_input
      [((0:ℚ),(0:ℚ),(0:ℚ)), (1,0,0), (0,1,0)] [(0,1,1)] [0]
      (Or.inr ⟨0, by decide, Or.inl (by decide)⟩)⟩

end BemppGrid
